import Mathlib

/-!
Verification of the Delphi-Scrape static-site export pipeline
(`tools/export_site.py`) against its natural-language specification.

The Python source is shallowly embedded: strings are `List Char`, byte
strings are `List Nat` (each entry < 256), machine integers are `Nat`
with explicit `% 2 ^ 32` where 32-bit overflow matters, optional values
are `Option`, and the filesystem operations touched by the claims are
modelled as explicit state (lists of file names keyed by content).
Every definition mirrors the Python function of the same name unless its
doc comment says otherwise.
-/

set_option maxRecDepth 100000

namespace DelphiExport

/-! ### SHA-1 (RFC 3174), as used by `hashlib.sha1(...).hexdigest()` -/

def m32 : Nat := 4294967296

def rotl32 (k x : Nat) : Nat := ((x <<< k) % m32) ||| (x >>> (32 - k))

def sha1F (t b c d : Nat) : Nat :=
  if t < 20 then (b &&& c) ||| ((b ^^^ (m32 - 1)) &&& d)
  else if t < 40 then (b ^^^ c) ^^^ d
  else if t < 60 then ((b &&& c) ||| (b &&& d)) ||| (c &&& d)
  else (b ^^^ c) ^^^ d

def sha1K (t : Nat) : Nat :=
  if t < 20 then 1518500249
  else if t < 40 then 1859775393
  else if t < 60 then 2400959708
  else 3395469782

def sha1LenBytes (n : Nat) : List Nat :=
  [(n >>> 56) % 256, (n >>> 48) % 256, (n >>> 40) % 256, (n >>> 32) % 256,
   (n >>> 24) % 256, (n >>> 16) % 256, (n >>> 8) % 256, n % 256]

def sha1Pad (m : List Nat) : List Nat :=
  m ++ 128 :: List.replicate ((120 - (m.length + 1) % 64) % 64) 0 ++ sha1LenBytes (8 * m.length)

def sha1BlocksF : Nat → List Nat → List (List Nat)
  | 0, _ => []
  | fuel + 1, l => if l = [] then [] else l.take 64 :: sha1BlocksF fuel (l.drop 64)

def sha1Blocks (l : List Nat) : List (List Nat) := sha1BlocksF l.length l

def bytesToWords (b : List Nat) : List Nat :=
  (List.range 16).map (fun i =>
    (b.getD (4 * i) 0) * 16777216 + (b.getD (4 * i + 1) 0) * 65536 +
      (b.getD (4 * i + 2) 0) * 256 + b.getD (4 * i + 3) 0)

def sha1Expand : Nat → List Nat → List Nat
  | 0, w => w
  | n + 1, w =>
      sha1Expand n (w ++ [rotl32 1 (((w.getD (w.length - 3) 0) ^^^ (w.getD (w.length - 8) 0)) ^^^
        ((w.getD (w.length - 14) 0) ^^^ (w.getD (w.length - 16) 0)))])

def sha1Round (st : Nat × Nat × Nat × Nat × Nat × Nat) (w : Nat) :
    Nat × Nat × Nat × Nat × Nat × Nat :=
  let (t, a, b, c, d, e) := st
  (t + 1, (rotl32 5 a + sha1F t b c d + e + sha1K t + w) % m32, a, rotl32 30 b, c, d)

def sha1Compress (h : Nat × Nat × Nat × Nat × Nat) (block : List Nat) :
    Nat × Nat × Nat × Nat × Nat :=
  let ws := sha1Expand 64 (bytesToWords block)
  let (h0, h1, h2, h3, h4) := h
  let (_, a, b, c, d, e) := ws.foldl sha1Round (0, h0, h1, h2, h3, h4)
  ((h0 + a) % m32, (h1 + b) % m32, (h2 + c) % m32, (h3 + d) % m32, (h4 + e) % m32)

def hexDigitChar (n : Nat) : Char := if n < 10 then Char.ofNat (48 + n) else Char.ofNat (87 + n)

def hex32 (n : Nat) : List Char :=
  (List.range 8).map (fun i => hexDigitChar ((n >>> (4 * (7 - i))) % 16))

def sha1Hex (m : List Nat) : List Char :=
  let st := (sha1Blocks (sha1Pad m)).foldl sha1Compress
    (1732584193, 4023233417, 2562383102, 271733878, 3285377520)
  hex32 st.1 ++ hex32 st.2.1 ++ hex32 st.2.2.1 ++ hex32 st.2.2.2.1 ++ hex32 st.2.2.2.2

/-- UTF-8 encoding of one character, as Python's `str.encode("utf-8")` does per code point. -/
def utf8EncodeChar (c : Char) : List Nat :=
  let n := c.toNat
  if n < 128 then [n]
  else if n < 2048 then [192 + n / 64, 128 + n % 64]
  else if n < 65536 then [224 + n / 4096, 128 + (n / 64) % 64, 128 + n % 64]
  else [240 + n / 262144, 128 + (n / 4096) % 64, 128 + (n / 64) % 64, 128 + n % 64]

def utf8Bytes (l : List Char) : List Nat := (l.map utf8EncodeChar).flatten

/-- Sanity check of the SHA-1 embedding against the digest of "abc". -/
theorem sha1Hex_abc : sha1Hex (utf8Bytes ['a', 'b', 'c']) =
    "a9993e364706816aba3e25717850c26c9cd0d89d".data := by decide

/-- Sanity check of the SHA-1 embedding against the empty-message test vector. -/
theorem sha1Hex_nil : sha1Hex [] = "da39a3ee5e6b4b0d3255bfef95601890afd80709".data := by decide

/-! ### Content Addressor: `HASH_EXT_RE` and `hash_for_url` -/

/-- Characters excluded from an extension by the character class of
`HASH_EXT_RE = re.compile(r"(\.[^./?&=\-]{1,5})$")`. -/
def extExcluded (c : Char) : Bool :=
  c == '.' || c == '/' || c == '?' || c == '&' || c == '=' || c == '-'

/-- Semantics of `HASH_EXT_RE.search(u)`.  The pattern is anchored at the end
of the string, so a match must run through every character after its leading
dot; since a dot is excluded from the character class, a match can only start
at the last dot of the string.  Hence: the regex matches exactly when the
characters after the last dot number between 1 and 5 and are all admissible,
and then the extension is that final segment together with its dot.  Returns
(text before the match, matched extension), with extension `[]` for no match. -/
def splitHashExt (u : List Char) : List Char × List Char :=
  let suffix := u.reverse.takeWhile (fun c => c != '.')
  if suffix.length < u.length ∧ 1 ≤ suffix.length ∧ suffix.length ≤ 5 ∧
      suffix.all (fun c => !extExcluded c) = true then
    (u.take (u.length - suffix.length - 1), '.' :: suffix.reverse)
  else (u, [])

/-- Embedding of `hash_for_url`: SHA-1 hex digest of the UTF-8 bytes of the
part before the extension, with the extension appended verbatim. -/
def hash_for_url (u : List Char) : List Char :=
  sha1Hex (utf8Bytes (splitHashExt u).1) ++ (splitHashExt u).2

/-- Modelled from the claim text of C1: a valid strippable extension is one dot
followed by 1 to 5 characters none of which is a dot, slash, question mark,
ampersand, equals sign or hyphen. -/
def SpecValidExt (x : List Char) : Prop :=
  ∃ rest, x = '.' :: rest ∧ 1 ≤ rest.length ∧ rest.length ≤ 5 ∧
    ∀ c ∈ rest, extExcluded c = false

theorem takeWhile_all_append {α} (p : α → Bool) (l1 : List α) (b : α) (l2 : List α)
    (h1 : ∀ a ∈ l1, p a = true) (hb : p b = false) :
    (l1 ++ b :: l2).takeWhile p = l1 := by
  induction l1 with
  | nil =>
    rw [List.nil_append]
    exact List.takeWhile_cons_of_neg (by simp [hb])
  | cons a as ih =>
    have ha : p a = true := h1 a (by simp)
    simp only [List.cons_append, List.takeWhile_cons_of_pos ha]
    rw [ih fun x hx => h1 x (by simp [hx])]

theorem dropWhile_head_false {α} (p : α → Bool) :
    ∀ (l : List α) (hd : α) (tl : List α), l.dropWhile p = hd :: tl → p hd = false := by
  intro l
  induction l with
  | nil => intro hd tl h; simp [List.dropWhile] at h
  | cons a as ih =>
    intro hd tl h
    by_cases hp : p a = true
    · rw [List.dropWhile_cons_of_pos hp] at h
      exact ih hd tl h
    · rw [List.dropWhile_cons_of_neg hp] at h
      cases h
      exact Bool.eq_false_iff.mpr hp

theorem mem_takeWhile_true {α} (p : α → Bool) :
    ∀ (l : List α) (a : α), a ∈ l.takeWhile p → p a = true := by
  intro l
  induction l with
  | nil => intro a h; simp [List.takeWhile] at h
  | cons b bs ih =>
    intro a h
    by_cases hp : p b = true
    · rw [List.takeWhile_cons_of_pos hp] at h
      rcases List.mem_cons.mp h with rfl | h
      · exact hp
      · exact ih a h
    · rw [List.takeWhile_cons_of_neg hp] at h
      simp at h

/-- Structure of a successful regex match: if `splitHashExt` reports an
extension, the input is the stem followed by that extension, and the extension
fits the claimed pattern. -/
theorem splitHashExt_eq_append (u : List Char) :
    u = (splitHashExt u).1 ++ (splitHashExt u).2 := by
  unfold splitHashExt
  set suffix := u.reverse.takeWhile (fun c => c != '.') with hsuf
  by_cases h : suffix.length < u.length ∧ 1 ≤ suffix.length ∧ suffix.length ≤ 5 ∧
      suffix.all (fun c => !extExcluded c) = true
  · rw [if_pos h]
    have hsplit : suffix ++ u.reverse.dropWhile (fun c => c != '.') = u.reverse := by
      rw [hsuf]; exact List.takeWhile_append_dropWhile _ _
    cases hdrop : u.reverse.dropWhile (fun c => c != '.') with
    | nil =>
      exfalso
      rw [hdrop, List.append_nil] at hsplit
      have : suffix.length = u.length := by
        rw [hsplit, List.length_reverse]
      omega
    | cons hd tl =>
      have hhd : (hd != '.') = false := dropWhile_head_false _ _ hd tl hdrop
      have hdot : hd = '.' := by
        simpa using hhd
      rw [hdrop] at hsplit
      have hu : u = tl.reverse ++ '.' :: suffix.reverse := by
        have := congrArg List.reverse hsplit
        simpa [List.reverse_append, hdot] using this.symm
      have hlen : u.length = tl.length + 1 + suffix.length := by
        rw [hu]; simp; omega
      have htake : u.take (u.length - suffix.length - 1) = tl.reverse := by
        have h2 : u.length - suffix.length - 1 = tl.reverse.length := by
          simp [hlen]
        rw [h2, hu]
        exact List.take_left _ _
      rw [htake]
      exact hu
  · rw [if_neg h]
    simp

/-- When `splitHashExt` reports an extension it fits the claim's pattern. -/
theorem splitHashExt_valid (u : List Char) (h : (splitHashExt u).2 ≠ []) :
    SpecValidExt (splitHashExt u).2 := by
  unfold splitHashExt at *
  set suffix := u.reverse.takeWhile (fun c => c != '.') with hsuf
  by_cases hc : suffix.length < u.length ∧ 1 ≤ suffix.length ∧ suffix.length ≤ 5 ∧
      suffix.all (fun c => !extExcluded c) = true
  · rw [if_pos hc]
    refine ⟨suffix.reverse, rfl, by simpa using hc.2.1, by simpa using hc.2.2.1, ?_⟩
    intro c hcmem
    have : (!extExcluded c) = true := by
      have := List.all_eq_true.mp hc.2.2.2
      exact this c (List.mem_reverse.mp hcmem)
    simpa using this
  · rw [if_neg hc] at h ⊢
    simp at h

/-- When `splitHashExt` reports no extension, no decomposition of the input
ends in a valid extension. -/
theorem splitHashExt_none (u : List Char) (h : (splitHashExt u).2 = []) :
    ∀ s x, u = s ++ x → ¬ SpecValidExt x := by
  intro s x hu hval
  obtain ⟨rest, rfl, h1, h5, hexcl⟩ := hval
  have hnodot : ∀ c ∈ rest.reverse, (c != '.') = true := by
    intro c hc
    have := hexcl c (List.mem_reverse.mp hc)
    have : c ≠ '.' := by
      intro hEq
      rw [hEq] at this
      simp [extExcluded] at this
    simpa using this
  have hrev : u.reverse = rest.reverse ++ '.' :: s.reverse := by
    rw [hu]; simp
  have hsuf : u.reverse.takeWhile (fun c => c != '.') = rest.reverse := by
    rw [hrev]
    exact takeWhile_all_append _ _ _ _ hnodot (by simp)
  have hulen : u.length = s.length + (rest.length + 1) := by
    rw [hu]; simp
  unfold splitHashExt at h
  rw [hsuf] at h
  have hcond : rest.reverse.length < u.length ∧ 1 ≤ rest.reverse.length ∧
      rest.reverse.length ≤ 5 ∧ rest.reverse.all (fun c => !extExcluded c) = true := by
    refine ⟨by simp [hulen]; omega, by simpa using h1, by simpa using h5, ?_⟩
    exact List.all_eq_true.mpr fun c hc => by simpa using hexcl c (List.mem_reverse.mp hc)
  rw [if_pos hcond] at h
  simp at h

/-- Claim C1: the hashed asset name strips a trailing extension matching one
dot followed by 1 to 5 characters outside the excluded set (when such a suffix
exists, otherwise nothing), takes the SHA-1 hex digest of the UTF-8 bytes of
the remaining part, and appends the stripped extension verbatim; it is a pure,
deterministic function of the URL. -/
theorem hash_for_url_spec (u : List Char) :
    hash_for_url u = sha1Hex (utf8Bytes (splitHashExt u).1) ++ (splitHashExt u).2 ∧
    u = (splitHashExt u).1 ++ (splitHashExt u).2 ∧
    ((splitHashExt u).2 ≠ [] → SpecValidExt (splitHashExt u).2) ∧
    ((splitHashExt u).2 = [] → ∀ s x, u = s ++ x → ¬ SpecValidExt x) ∧
    ∀ v, u = v → hash_for_url u = hash_for_url v := by
  refine ⟨rfl, splitHashExt_eq_append u, splitHashExt_valid u, splitHashExt_none u, ?_⟩
  intro v hv
  rw [hv]

/-- Witness for C1 at the concrete URL "http://x/a.png": the split is
("http://x/a", ".png"), the digest matches a direct evaluation, and the
no-match case is exercised on "http://x/a" itself. -/
theorem hash_for_url_spec_witness :
    ("http://x/a.png".data = (splitHashExt "http://x/a.png".data).1 ++
      (splitHashExt "http://x/a.png".data).2) ∧
    SpecValidExt (splitHashExt "http://x/a.png".data).2 ∧
    (∀ s x, "http/".data = s ++ x → ¬ SpecValidExt x) := by
  refine ⟨(hash_for_url_spec "http://x/a.png".data).2.1, ?_, ?_⟩
  · exact (hash_for_url_spec "http://x/a.png".data).2.2.1 (by decide)
  · exact (hash_for_url_spec "http/".data).2.2.2.1 (by decide)

/-! ### Asset resolution: `ensure_local_asset`

The store's `files/` directory is modelled as the list of file names it
contains (read-only), and the export's `files/` directory as the list of file
names already copied there.  `shutil.copy2` is modelled as appending the
hashed name to the export directory; `destination.exists()` as list
membership.  The function returns the embedded path (or `none`) and the new
export directory state. -/

def ensure_local_asset (url : List Char) (storeFiles : List (List Char))
    (exportFiles : List (List Char)) : Option (List Char) × List (List Char) :=
  if url = [] then (none, exportFiles)
  else
    let hashedName := hash_for_url url
    if hashedName ∈ storeFiles then
      (some ("files/".data ++ hashedName),
        if hashedName ∈ exportFiles then exportFiles else exportFiles ++ [hashedName])
    else (none, exportFiles)

/-- Claim C2: resolution computes the hashed name; when present in the store it
is copied into the export directory only when absent there and the relative
path "files/<hashed-name>" is returned; when absent in the store (or the URL
is empty) the result is `none` and the export state is untouched; the
operation is total (a missing asset never raises), and repeating a request is
a no-op on the export state. -/
theorem ensure_local_asset_spec :
    (∀ storeFiles exportFiles, ensure_local_asset [] storeFiles exportFiles =
      (none, exportFiles)) ∧
    (∀ url storeFiles exportFiles, url ≠ [] →
      hash_for_url url ∈ storeFiles →
      ensure_local_asset url storeFiles exportFiles =
        (some ("files/".data ++ hash_for_url url),
          if hash_for_url url ∈ exportFiles then exportFiles
          else exportFiles ++ [hash_for_url url])) ∧
    (∀ url storeFiles exportFiles, url ≠ [] →
      hash_for_url url ∉ storeFiles →
      ensure_local_asset url storeFiles exportFiles = (none, exportFiles)) ∧
    (∀ url storeFiles exportFiles,
      ensure_local_asset url storeFiles (ensure_local_asset url storeFiles exportFiles).2 =
        ((ensure_local_asset url storeFiles exportFiles).1,
          (ensure_local_asset url storeFiles exportFiles).2)) := by
  refine ⟨fun s e => by simp [ensure_local_asset], ?_, ?_, ?_⟩
  · intro url s e hu hs
    simp [ensure_local_asset, hu, hs]
  · intro url s e hu hs
    simp [ensure_local_asset, hu, hs]
  · intro url s e
    by_cases hu : url = []
    · simp [ensure_local_asset, hu]
    · by_cases hs : hash_for_url url ∈ s
      · by_cases he : hash_for_url url ∈ e
        · simp [ensure_local_asset, hu, hs, he]
        · have hmem : hash_for_url url ∈ e ++ [hash_for_url url] := by simp
          simp [ensure_local_asset, hu, hs, he, hmem]
      · simp [ensure_local_asset, hu, hs]

/-- Witness for C2: a store holding exactly the hash of "a.png" serves that
URL (copying once), stays idempotent, and reports `none` for "b.png". -/
theorem ensure_local_asset_spec_witness :
    (ensure_local_asset "a.png".data [hash_for_url "a.png".data] [] =
      (some ("files/".data ++ hash_for_url "a.png".data), [hash_for_url "a.png".data])) ∧
    (ensure_local_asset "b.png".data [hash_for_url "a.png".data] [] = (none, [])) ∧
    (ensure_local_asset [] [hash_for_url "a.png".data] [] = (none, [])) := by
  refine ⟨?_, ?_, ?_⟩
  · have h := (ensure_local_asset_spec).2.1 "a.png".data [hash_for_url "a.png".data] []
      (by decide) (by simp)
    rw [h]
    simp
  · exact (ensure_local_asset_spec).2.2.1 "b.png".data [hash_for_url "a.png".data] []
      (by decide) (by decide)
  · exact (ensure_local_asset_spec).1 [hash_for_url "a.png".data] []

/-! ### Text utilities: Python whitespace, `strip`, `lower`, and the regexes
of `strip_html` -/

/-- Whitespace for Python's `str` regex class and `str.strip`/`str.isspace`:
ASCII control whitespace, the C1 separators, and the Unicode space code
points. -/
def pyIsSpace (c : Char) : Bool :=
  let n := c.toNat
  decide ((9 ≤ n ∧ n ≤ 13) ∨ n = 32 ∨ (28 ≤ n ∧ n ≤ 31) ∨ n = 133 ∨ n = 160 ∨
    n = 5760 ∨ (8192 ≤ n ∧ n ≤ 8202) ∨ n = 8232 ∨ n = 8233 ∨ n = 8239 ∨
    n = 8287 ∨ n = 12288)

/-- Python `str.strip()`. -/
def pyStrip (l : List Char) : List Char :=
  ((l.dropWhile pyIsSpace).reverse.dropWhile pyIsSpace).reverse

/-- Python `str.rstrip()`. -/
def pyRstrip (l : List Char) : List Char := (l.reverse.dropWhile pyIsSpace).reverse

/-- Python `str.lower()` restricted to simple per-character mapping.  The only
place lowering matters to a claim is the check for the literal ASCII suffix
" unread", on which the simple map agrees with Python. -/
def pyLower (l : List Char) : List Char := l.map Char.toLower

/-- Python's falsy-coalescing `x or default` for optional strings: `None` and
the empty string are replaced by the default. -/
def pyOr (o : Option (List Char)) (deflt : List Char) : List Char :=
  match o with
  | none => deflt
  | some s => if s = [] then deflt else s

/-- Fuelled implementation of `re.sub(r"\s+", " ", text)`: each maximal run of
whitespace becomes one ASCII space.  The fuel only drives structural recursion;
`collapseWS` supplies enough of it. -/
def collapseWSF : Nat → List Char → List Char
  | 0, _ => []
  | _ + 1, [] => []
  | fuel + 1, c :: cs =>
    if pyIsSpace c then ' ' :: collapseWSF fuel (cs.dropWhile pyIsSpace)
    else c :: collapseWSF fuel cs

def collapseWS (l : List Char) : List Char := collapseWSF l.length l

/-- Fuelled implementation of `STRIP_TAG_RE.sub(" ", text)` for the pattern
`<[^>]+>`: a match starts at a literal `<`, greedily spans the non-`>`
characters after it, and must close with the first `>` at distance at least
one; each match is replaced by one space, scanning left to right. -/
def stripTagsF : Nat → List Char → List Char
  | 0, _ => []
  | _ + 1, [] => []
  | fuel + 1, c :: cs =>
    if c = '<' then
      match cs.findIdx? (fun x => x == '>') with
      | some (i + 1) => ' ' :: stripTagsF fuel (cs.drop (i + 2))
      | _ => c :: stripTagsF fuel cs
    else c :: stripTagsF fuel cs

def stripTags (l : List Char) : List Char := stripTagsF l.length l

/-- Python `plain[:n].rsplit(" ", 1)[0]`: everything strictly before the last
ASCII space, or the whole list when it holds no space. -/
def rsplitLastSpace (l : List Char) : List Char :=
  if l.reverse.dropWhile (fun c => c != ' ') = [] then l
  else ((l.reverse.dropWhile (fun c => c != ' ')).drop 1).reverse

/-- The punctuation set of `build_snippet`'s `rstrip(".,;")`. -/
def isPunctStrip (c : Char) : Bool := c == '.' || c == ',' || c == ';'

/-- Python `s.rstrip(".,;")`. -/
def rstripPunct (l : List Char) : List Char := (l.reverse.dropWhile isPunctStrip).reverse

/-- Python `s.endswith((".", ",", ";"))`. -/
def endsPunct (l : List Char) : Bool :=
  match l.getLast? with
  | some c => isPunctStrip c
  | none => false

/-- Embedding of `strip_html`.  `html.unescape` is a stdlib entity decoder;
it is taken as an arbitrary string transformation `ue`, since every claim
about snippets holds for any such function (the collapse and strip that follow
it normalise its output). -/
def strip_html (ue : List Char → List Char) (text : Option (List Char)) : List Char :=
  match text with
  | none => []
  | some s => pyStrip (collapseWS (ue (stripTags s)))

/-- Embedding of `build_snippet` with its fixed `max_length = 180` (every call
site uses the default). -/
def build_snippet (ue : List Char → List Char) (text : Option (List Char)) : List Char :=
  let plain := strip_html ue text
  if plain.length ≤ 180 then plain
  else
    let t0 := pyStrip (rsplitLastSpace (plain.take 180))
    let t1 := if t0 = [] then pyStrip (plain.take 180) else t0
    let t2 := if endsPunct t1 = true then rstripPunct t1 else t1
    t2 ++ "...".data

/-- Modelled from the claim text of C5: keep short text verbatim; otherwise
cut the first 180 characters back to the last whitespace boundary (the whole
prefix when it has none), strip trailing punctuation, append the ellipsis
marker. -/
def snippetSpec (plain : List Char) : List Char :=
  if plain.length ≤ 180 then plain
  else rstripPunct (rsplitLastSpace (plain.take 180)) ++ "...".data

/-! ### Properties of the whitespace collapse and the snippet truncation -/

theorem length_dropWhile_le' {α} (p : α → Bool) (l : List α) :
    (l.dropWhile p).length ≤ l.length :=
  (List.dropWhile_suffix p).sublist.length_le

theorem collapseWSF_irrel :
    ∀ (f1 f2 : Nat) (l : List Char), l.length ≤ f1 → l.length ≤ f2 →
      collapseWSF f1 l = collapseWSF f2 l := by
  intro f1
  induction f1 with
  | zero =>
    intro f2 l h1 h2
    have hl : l = [] := List.length_eq_zero.mp (Nat.le_zero.mp h1)
    subst hl
    cases f2 <;> rfl
  | succ n ih =>
    intro f2 l h1 h2
    cases l with
    | nil => cases f2 <;> rfl
    | cons c cs =>
      cases f2 with
      | zero => simp at h2
      | succ m =>
        simp only [collapseWSF]
        by_cases hc : pyIsSpace c = true
        · rw [if_pos hc, if_pos hc]
          have hd := length_dropWhile_le' pyIsSpace cs
          simp only [List.length_cons] at h1 h2
          exact congrArg _ (ih m _ (by omega) (by omega))
        · rw [if_neg hc, if_neg hc]
          simp only [List.length_cons] at h1 h2
          exact congrArg _ (ih m _ (by omega) (by omega))

theorem collapseWS_cons (c : Char) (cs : List Char) :
    collapseWS (c :: cs) =
      if pyIsSpace c then ' ' :: collapseWS (cs.dropWhile pyIsSpace)
      else c :: collapseWS cs := by
  show collapseWSF (c :: cs).length (c :: cs) = _
  simp only [List.length_cons, collapseWSF]
  by_cases hc : pyIsSpace c = true
  · rw [if_pos hc, if_pos hc]
    exact congrArg _ (collapseWSF_irrel _ _ _ (length_dropWhile_le' pyIsSpace cs) le_rfl)
  · rw [if_neg hc, if_neg hc]
    rfl

theorem collapseWS_mem_space :
    ∀ (n : Nat) (l : List Char), l.length ≤ n →
      ∀ c ∈ collapseWS l, pyIsSpace c = true → c = ' ' := by
  intro n
  induction n with
  | zero =>
    intro l hl c hc _
    have : l = [] := List.length_eq_zero.mp (Nat.le_zero.mp hl)
    subst this
    simp [collapseWS, collapseWSF] at hc
  | succ n ih =>
    intro l hl c hc hspace
    cases l with
    | nil => simp [collapseWS, collapseWSF] at hc
    | cons a as =>
      rw [collapseWS_cons] at hc
      simp only [List.length_cons] at hl
      by_cases ha : pyIsSpace a = true
      · rw [if_pos ha] at hc
        rcases List.mem_cons.mp hc with rfl | hc2
        · rfl
        · have hd := length_dropWhile_le' pyIsSpace as
          exact ih _ (by omega) c hc2 hspace
      · rw [if_neg ha] at hc
        rcases List.mem_cons.mp hc with rfl | hc2
        · exact absurd hspace ha
        · exact ih _ (by omega) c hc2 hspace

theorem collapseWS_chain :
    ∀ (n : Nat) (l : List Char), l.length ≤ n →
      (collapseWS l).Chain' (fun a b => ¬(a = ' ' ∧ b = ' ')) := by
  intro n
  induction n with
  | zero =>
    intro l hl
    have : l = [] := List.length_eq_zero.mp (Nat.le_zero.mp hl)
    subst this
    simp [collapseWS, collapseWSF]
  | succ n ih =>
    intro l hl
    cases l with
    | nil => simp [collapseWS, collapseWSF]
    | cons a as =>
      rw [collapseWS_cons]
      simp only [List.length_cons] at hl
      by_cases ha : pyIsSpace a = true
      · rw [if_pos ha]
        rw [List.chain'_cons']
        constructor
        · intro y hy
          cases hdw : as.dropWhile pyIsSpace with
          | nil => rw [hdw] at hy; simp [collapseWS, collapseWSF] at hy
          | cons d ds =>
            have hd : pyIsSpace d = false := dropWhile_head_false _ _ _ _ hdw
            rw [hdw, collapseWS_cons, if_neg (by simp [hd])] at hy
            simp only [List.head?_cons, Option.mem_some_iff] at hy
            subst hy
            rintro ⟨-, hd2⟩
            rw [hd2] at hd
            simp [pyIsSpace] at hd
        · have hdlen := length_dropWhile_le' pyIsSpace as
          exact ih _ (by omega)
      · rw [if_neg ha]
        rw [List.chain'_cons']
        refine ⟨?_, ih _ (by omega)⟩
        rintro y hy ⟨ha2, -⟩
        rw [ha2] at ha
        simp [pyIsSpace] at ha

theorem pyStrip_prefix_dropWhile (l : List Char) :
    pyStrip l <+: l.dropWhile pyIsSpace := by
  have h3 : (l.dropWhile pyIsSpace).reverse.dropWhile pyIsSpace <:+
      (l.dropWhile pyIsSpace).reverse := List.dropWhile_suffix _
  have h4 := List.reverse_prefix.mpr h3
  rwa [List.reverse_reverse] at h4

theorem pyStrip_infixOf (l : List Char) : pyStrip l <:+: l :=
  (pyStrip_prefix_dropWhile l).isInfix.trans (List.dropWhile_suffix pyIsSpace).isInfix

theorem pyStrip_head (l : List Char) :
    ∀ c ∈ (pyStrip l).head?, pyIsSpace c = false := by
  intro c hc
  cases hp : pyStrip l with
  | nil => rw [hp] at hc; simp at hc
  | cons a bs =>
    rw [hp] at hc
    simp only [List.head?_cons, Option.mem_some_iff] at hc
    obtain ⟨t, ht⟩ := pyStrip_prefix_dropWhile l
    rw [hp] at ht
    have hfalse := dropWhile_head_false pyIsSpace l a (bs ++ t) (by rw [← ht]; rfl)
    rw [← hc]
    exact hfalse

theorem dropWhile_eq_self_of_head {α} (p : α → Bool) (l : List α)
    (h : ∀ c ∈ l.head?, p c = false) : l.dropWhile p = l := by
  cases l with
  | nil => rfl
  | cons a as => exact List.dropWhile_cons_of_neg (by simp [h a (by simp)])

theorem pyStrip_eq_self (l : List Char)
    (h1 : ∀ c ∈ l.head?, pyIsSpace c = false)
    (h2 : ∀ c ∈ l.getLast?, pyIsSpace c = false) : pyStrip l = l := by
  unfold pyStrip
  rw [dropWhile_eq_self_of_head pyIsSpace l h1]
  rw [dropWhile_eq_self_of_head pyIsSpace l.reverse (by simpa using h2)]
  exact List.reverse_reverse l

theorem rsplit_no_space (l : List Char) (h : ' ' ∉ l) : rsplitLastSpace l = l := by
  unfold rsplitLastSpace
  rw [if_pos]
  apply List.dropWhile_eq_nil_iff.mpr
  intro x hx
  have hx2 : x ∈ l := List.mem_reverse.mp hx
  have : x ≠ ' ' := fun hEq => h (hEq ▸ hx2)
  simp [this]

theorem rsplit_decomp (l : List Char) (h : ' ' ∈ l) :
    l = rsplitLastSpace l ++ ' ' :: (l.reverse.takeWhile (fun c => c != ' ')).reverse ∧
      ' ' ∉ (l.reverse.takeWhile (fun c => c != ' ')).reverse := by
  cases hdrop : l.reverse.dropWhile (fun c => c != ' ') with
  | nil =>
    exfalso
    have hall := List.dropWhile_eq_nil_iff.mp hdrop
    have := hall ' ' (List.mem_reverse.mpr h)
    simp at this
  | cons hd tl =>
    have hhd : (hd != ' ') = false :=
      dropWhile_head_false (fun c => c != ' ') l.reverse hd tl hdrop
    have hdsp : hd = ' ' := by simpa using hhd
    have hsplit : l.reverse.takeWhile (fun c => c != ' ') ++ hd :: tl = l.reverse := by
      rw [← hdrop]
      exact List.takeWhile_append_dropWhile _ _
    constructor
    · have hrsp : rsplitLastSpace l = tl.reverse := by
        unfold rsplitLastSpace
        rw [if_neg (by rw [hdrop]; simp), hdrop]
        rfl
      rw [hrsp]
      conv_lhs => rw [← List.reverse_reverse l, ← hsplit]
      rw [hdsp]
      simp [List.reverse_append]
    · intro hsuf
      have hmem : ' ' ∈ l.reverse.takeWhile (fun c => c != ' ') := List.mem_reverse.mp hsuf
      have := mem_takeWhile_true _ _ _ hmem
      simp at this

theorem rstripPunct_eq_self (l : List Char) (h : endsPunct l = false) :
    rstripPunct l = l := by
  unfold rstripPunct
  cases hr : l.reverse with
  | nil =>
    have : l = [] := by simpa using congrArg List.reverse hr
    simp [this]
  | cons a as =>
    have hl : l.getLast? = some a := by rw [← List.head?_reverse, hr]; rfl
    have ha : isPunctStrip a = false := by
      unfold endsPunct at h
      rw [hl] at h
      exact h
    have hdw : List.dropWhile isPunctStrip (a :: as) = a :: as :=
      List.dropWhile_cons_of_neg (by simp [ha])
    rw [hdw, ← hr, List.reverse_reverse]

theorem cond_rstripPunct (l : List Char) :
    (if endsPunct l = true then rstripPunct l else l) = rstripPunct l := by
  by_cases h : endsPunct l = true
  · rw [if_pos h]
  · rw [if_neg h, rstripPunct_eq_self l (by simpa using h)]

theorem rstripPunct_length_le (l : List Char) : (rstripPunct l).length ≤ l.length := by
  unfold rstripPunct
  rw [List.length_reverse]
  exact (length_dropWhile_le' _ _).trans (by simp)

theorem rsplitLastSpace_length_le (l : List Char) :
    (rsplitLastSpace l).length ≤ l.length := by
  unfold rsplitLastSpace
  by_cases h : l.reverse.dropWhile (fun c => c != ' ') = []
  · rw [if_pos h]
  · rw [if_neg h]
    rw [List.length_reverse]
    have h1 := length_dropWhile_le' (fun c => c != ' ') l.reverse
    rw [List.length_reverse] at h1
    calc ((l.reverse.dropWhile (fun c => c != ' ')).drop 1).length
        ≤ (l.reverse.dropWhile (fun c => c != ' ')).length := by
          rw [List.length_drop]; omega
      _ ≤ l.length := h1

theorem strip_html_mem_space (ue : List Char → List Char) (text : Option (List Char)) :
    ∀ c ∈ strip_html ue text, pyIsSpace c = true → c = ' ' := by
  intro c hc hsp
  cases text with
  | none => simp [strip_html] at hc
  | some s =>
    have hmem : c ∈ collapseWS (ue (stripTags s)) :=
      (pyStrip_infixOf _).sublist.subset hc
    exact collapseWS_mem_space _ _ le_rfl c hmem hsp

theorem strip_html_chain (ue : List Char → List Char) (text : Option (List Char)) :
    (strip_html ue text).Chain' (fun a b => ¬(a = ' ' ∧ b = ' ')) := by
  cases text with
  | none => simp [strip_html]
  | some s => exact List.Chain'.infix (collapseWS_chain _ _ le_rfl) (pyStrip_infixOf _)

theorem strip_html_head (ue : List Char → List Char) (text : Option (List Char)) :
    ∀ c ∈ (strip_html ue text).head?, pyIsSpace c = false := by
  cases text with
  | none => simp [strip_html]
  | some s => exact pyStrip_head _

/-- Core of the snippet truncation argument: on a whitespace-collapsed,
left-stripped, nonempty list, cutting back to the last space yields a piece
that needs no further stripping and is nonempty, so `build_snippet`'s
fallback and re-strip branches are no-ops. -/
theorem snippet_cut_strip (u : List Char)
    (husp : ∀ c ∈ u, pyIsSpace c = true → c = ' ')
    (huch : u.Chain' (fun a b => ¬(a = ' ' ∧ b = ' ')))
    (huhd : ∀ c ∈ u.head?, pyIsSpace c = false)
    (hune : u ≠ []) :
    pyStrip (rsplitLastSpace u) = rsplitLastSpace u ∧ rsplitLastSpace u ≠ [] := by
  by_cases hs : ' ' ∈ u
  · obtain ⟨hdec, hnos⟩ := rsplit_decomp u hs
    have hbne : rsplitLastSpace u ≠ [] := by
      intro hb
      rw [hb, List.nil_append] at hdec
      have hhead : u.head? = some ' ' := by rw [hdec]; rfl
      have hsp' := huhd ' ' (by simp [hhead])
      simp [pyIsSpace] at hsp'
    have hbh : ∀ c ∈ (rsplitLastSpace u).head?, pyIsSpace c = false := by
      intro c hc
      cases hbcase : rsplitLastSpace u with
      | nil => exact absurd hbcase hbne
      | cons b bs =>
        rw [hbcase] at hc
        simp only [List.head?_cons, Option.mem_some_iff] at hc
        have hhead : u.head? = some b := by rw [hdec, hbcase]; rfl
        rw [← hc]
        exact huhd b (by simp [hhead])
    have hbl : ∀ c ∈ (rsplitLastSpace u).getLast?, pyIsSpace c = false := by
      intro c hc
      have htch := huch
      rw [hdec] at htch
      have h3 := (List.chain'_append.mp htch).2.2
      have hR := h3 c hc ' ' (by simp)
      have hcne : c ≠ ' ' := fun hEq => hR ⟨hEq, rfl⟩
      have hcmem : c ∈ u := by
        rw [hdec]
        exact List.mem_append_left _ (List.mem_of_getLast?_eq_some hc)
      by_cases hcsp : pyIsSpace c = true
      · exact absurd (husp c hcmem hcsp) hcne
      · simpa using hcsp
    exact ⟨pyStrip_eq_self _ hbh hbl, hbne⟩
  · have hrs : rsplitLastSpace u = u := rsplit_no_space u hs
    have hall : ∀ c ∈ u, pyIsSpace c = false := by
      intro c hc
      by_cases hcsp : pyIsSpace c = true
      · have := husp c hc hcsp
        rw [this] at hc
        exact absurd hc hs
      · simpa using hcsp
    rw [hrs]
    exact ⟨pyStrip_eq_self u (fun c hc => hall c (List.mem_of_mem_head? hc))
      (fun c hc => hall c (List.mem_of_getLast?_eq_some hc)), hune⟩

theorem build_snippet_eq_spec (ue : List Char → List Char) (text : Option (List Char)) :
    build_snippet ue text = snippetSpec (strip_html ue text) := by
  by_cases h : (strip_html ue text).length ≤ 180
  · simp only [build_snippet, snippetSpec, if_pos h]
  · have hcore := snippet_cut_strip ((strip_html ue text).take 180)
      (fun c hc => strip_html_mem_space ue text c (List.take_subset _ _ hc))
      ((strip_html_chain ue text).take 180)
      (by
        intro c hc
        rw [List.head?_take, if_neg (by omega)] at hc
        exact strip_html_head ue text c hc)
      (by
        intro hteq
        have h2 := congrArg List.length hteq
        rw [List.length_take] at h2
        simp only [List.length_nil] at h2
        omega)
    simp only [build_snippet, snippetSpec, if_neg h]
    rw [hcore.1, if_neg hcore.2, cond_rstripPunct]

/-- Claim C5: the snippet equals the stripped text verbatim when that text has
at most 180 characters; otherwise it is the first 180 characters cut back to
the last whitespace boundary (hard cut when there is none in range, which is
the case exactly when that prefix holds no space), with trailing '.', ',' and
';' stripped and an ellipsis marker appended, and the part before the marker
never exceeds 180 characters.  Stated for every entity-decoder `ue`. -/
theorem build_snippet_claim (ue : List Char → List Char) (text : Option (List Char)) :
    build_snippet ue text = snippetSpec (strip_html ue text) ∧
    ((strip_html ue text).length ≤ 180 → build_snippet ue text = strip_html ue text) ∧
    (180 < (strip_html ue text).length →
      build_snippet ue text =
        rstripPunct (rsplitLastSpace ((strip_html ue text).take 180)) ++ "...".data ∧
      (rstripPunct (rsplitLastSpace ((strip_html ue text).take 180))).length ≤ 180) := by
  refine ⟨build_snippet_eq_spec ue text, ?_, ?_⟩
  · intro h
    rw [build_snippet_eq_spec, snippetSpec, if_pos h]
  · intro h
    refine ⟨?_, ?_⟩
    · rw [build_snippet_eq_spec, snippetSpec, if_neg (by omega)]
    · refine (rstripPunct_length_le _).trans ((rsplitLastSpace_length_le _).trans ?_)
      rw [List.length_take]
      omega

/-- Witness for C5 on a concrete 200-character body with one space: the
snippet cuts at the space, strips nothing, and appends the marker. -/
theorem build_snippet_claim_witness :
    (180 < (strip_html id (some (List.replicate 100 'y' ++ ' ' :: List.replicate 99 'z'))).length ∧
      build_snippet id (some (List.replicate 100 'y' ++ ' ' :: List.replicate 99 'z')) =
        rstripPunct (rsplitLastSpace ((strip_html id
          (some (List.replicate 100 'y' ++ ' ' :: List.replicate 99 'z'))).take 180)) ++
          "...".data) ∧
    ((strip_html id (some ("short text".data))).length ≤ 180 ∧
      build_snippet id (some ("short text".data)) = strip_html id (some ("short text".data))) := by
  constructor
  · exact ⟨by decide,
      ((build_snippet_claim id (some (List.replicate 100 'y' ++ ' ' :: List.replicate 99 'z'))).2.2
        (by decide)).1⟩
  · exact ⟨by decide,
      (build_snippet_claim id (some ("short text".data))).2.1 (by decide)⟩

/-! ### Slugs, records and the model-building loop of `main` -/

/-- Characters kept by `slugify`'s character class `[a-z0-9]`. -/
def isSlugChar (c : Char) : Bool :=
  decide ((97 ≤ c.toNat ∧ c.toNat ≤ 122) ∨ (48 ≤ c.toNat ∧ c.toNat ≤ 57))

/-- Fuelled implementation of `re.sub(r"[^a-z0-9]+", "-", s)`: each maximal run
of non-slug characters becomes one hyphen. -/
def squashF : Nat → List Char → List Char
  | 0, _ => []
  | _ + 1, [] => []
  | fuel + 1, c :: cs =>
    if isSlugChar c then c :: squashF fuel cs
    else '-' :: squashF fuel (cs.dropWhile (fun x => !isSlugChar x))

/-- Embedding of `slugify`. -/
def slugify (v : List Char) : List Char :=
  if v = [] then "forum".data
  else
    let s := squashF (pyLower v).length (pyLower v)
    let s2 := ((s.dropWhile (fun c => c == '-')).reverse.dropWhile (fun c => c == '-')).reverse
    if s2 = [] then "forum".data else s2

/-- Embedding of `parse_date`.  `strptime` against the two fixed patterns is
taken as an arbitrary partial parse `pdCore` into timestamps; timestamps are
embedded as `Nat` order-isomorphically (no attainable datetime reaches
`datetime.max`, modelled as `none`-handling in the sort keys below).  The
falsy guard `if not raw` is explicit. -/
def parse_date (pdCore : List Char → Option Nat) (raw : Option (List Char)) : Option Nat :=
  match raw with
  | none => none
  | some s => if s = [] then none else pdCore s

structure PyAttachment where
  href : Option (List Char)
  name : Option (List Char)
  size : Option (List Char)
deriving DecidableEq

/-- One message entry of a thread record (`msg.get(...)` fields). -/
structure PyMsg where
  id : Option (List Char)
  fromName : Option (List Char)
  toName : Option (List Char)
  fromStatus : Option (List Char)
  toStatus : Option (List Char)
  date : Option (List Char)
  content : Option (List Char)
  images : List (List Char)
  attachments : List PyAttachment
  inReplyTo : Option (List Char)
deriving DecidableEq

/-- One raw thread record as loaded from `threads/<stem>.yaml`. -/
structure RawRecord where
  stem : List Char
  theadId : Option (List Char)
  topic : Option (List Char)
  folder : Option (List Char)
  views : Option (List Char)
  messages : Option (List PyMsg)
deriving DecidableEq

/-- The per-thread dictionary `main` accumulates into `threads`. -/
structure ExpThread where
  id : List Char
  title : List Char
  folder : List Char
  folderSlug : List Char
  views : Option (List Char)
  messageCount : Nat
  firstDate : Option Nat
  lastDate : Option Nat
  firstAuthor : Option (List Char)
  snippet : List Char
deriving DecidableEq

/-- One iteration of `main`'s loop over thread records: a record whose message
list is empty or absent is skipped (`continue`) before anything is built or
rendered; otherwise the thread model is assembled. -/
def processRecord (pdCore : List Char → Option Nat) (ue : List Char → List Char)
    (r : RawRecord) : Option ExpThread :=
  match r.messages.getD [] with
  | [] => none
  | m0 :: rest =>
    let threadId := pyOr r.theadId r.stem
    let folder := pyOr r.folder "Uncategorised".data
    some {
      id := threadId
      title := pyOr r.topic ("Thread ".data ++ threadId)
      folder := folder
      folderSlug := slugify folder
      views := r.views
      messageCount := (m0 :: rest).length
      firstDate := parse_date pdCore m0.date
      lastDate := parse_date pdCore ((m0 :: rest).getLastD m0).date
      firstAuthor := m0.fromName
      snippet := build_snippet ue m0.content }

/-- The full `threads` list `main` builds, in record order. -/
def mainThreads (pdCore : List Char → Option Nat) (ue : List Char → List Char)
    (rs : List RawRecord) : List ExpThread :=
  rs.filterMap (processRecord pdCore ue)

/-- A folder bucket of `main` (`{"name": ..., "slug": ..., "threads": [...]}`). -/
structure PyFolder where
  name : List Char
  slug : List Char
  threads : List ExpThread
deriving DecidableEq

/-- Re-application of the falsy default: `thread["folder"] or "Uncategorised"`. -/
def folderNameOf (t : ExpThread) : List Char :=
  if t.folder = [] then "Uncategorised".data else t.folder

/-- Re-application of `thread.get("folder_slug") or slugify(folder_name)`. -/
def folderSlugOf (t : ExpThread) : List Char :=
  if t.folderSlug = [] then slugify (folderNameOf t) else t.folderSlug

/-- One step of the folder-bucketing loop: `folders.setdefault(folder_name, ...)`
keyed by the display name (insertion order preserved), appending the thread. -/
def addThreadToFolders (acc : List PyFolder) (t : ExpThread) : List PyFolder :=
  if acc.any (fun f => f.name == folderNameOf t) then
    acc.map (fun f => if f.name == folderNameOf t then
      { f with threads := f.threads ++ [t] } else f)
  else acc ++ [{ name := folderNameOf t, slug := folderSlugOf t, threads := [t] }]

def buildFolders (threads : List ExpThread) : List PyFolder :=
  threads.foldl addThreadToFolders []

/-! ### The two sort policies (folder listing, index preview)

Python `sorted`/`list.sort` are stable; given a total preorder they produce
the same list as insertion sort, so both sorts are embedded through
`List.insertionSort`.  Tuple keys compare lexicographically; `datetime`
values are embedded as `Nat`.  `t.get("first_date") or datetime.max` makes an
absent date the greatest key (no parsed date attains `datetime.max`, whose
microseconds no `strptime` pattern here can produce), and
`t["last_date"] or datetime.min` makes it the least; `reverse=True` flips the
comparison while preserving stability. -/

def cmpNat (x y : Nat) : Ordering :=
  if x < y then .lt else if x = y then .eq else .gt

def cmpChar (c d : Char) : Ordering := cmpNat c.toNat d.toNat

/-- Python string comparison: lexicographic by code point. -/
def cmpChars : List Char → List Char → Ordering
  | [], [] => .eq
  | [], _ :: _ => .lt
  | _ :: _, [] => .gt
  | a :: as, b :: bs => (cmpChar a b).then (cmpChars as bs)

/-- Comparison of `x or datetime.max` keys: an absent date is greatest. -/
def cmpOptTop (a b : Option Nat) : Ordering :=
  match a, b with
  | none, none => .eq
  | none, some _ => .gt
  | some _, none => .lt
  | some x, some y => cmpNat x y

/-- Comparison of `x or datetime.min` keys: an absent date is least. -/
def cmpOptBot (a b : Option Nat) : Ordering :=
  match a, b with
  | none, none => .eq
  | none, some _ => .lt
  | some _, none => .gt
  | some x, some y => cmpNat x y

/-- The key of `render_folder_html`'s `sorted(...)`:
`(t.get("first_date") or datetime.max, t.get("id"))`, ascending. -/
def listingCmp (a b : ExpThread) : Ordering :=
  (cmpOptTop a.firstDate b.firstDate).then (cmpChars a.id b.id)

/-- The key of the per-folder preview sort in `main`:
`(t["last_date"] or datetime.min, t["id"])` with `reverse=True`. -/
def previewCmp (a b : ExpThread) : Ordering :=
  (cmpOptBot a.lastDate b.lastDate).then (cmpChars a.id b.id)

/-- Sort-before-or-tied relation of the ascending folder listing. -/
def ListingRel (a b : ExpThread) : Prop := listingCmp a b ≠ .gt

/-- Sort-before-or-tied relation of the descending (`reverse=True`) preview. -/
def PreviewRel (a b : ExpThread) : Prop := previewCmp a b ≠ .lt

instance : DecidableRel ListingRel := fun a b =>
  inferInstanceAs (Decidable (listingCmp a b ≠ .gt))

instance : DecidableRel PreviewRel := fun a b =>
  inferInstanceAs (Decidable (previewCmp a b ≠ .lt))

theorem Ordering_then_swap (o p : Ordering) : (o.then p).swap = o.swap.then p.swap := by
  cases o <;> rfl

theorem cmpNat_lt_iff (x y : Nat) : cmpNat x y = .lt ↔ x < y := by
  unfold cmpNat
  split_ifs with h1 h2
  · exact iff_of_true rfl h1
  · exact iff_of_false (by simp) (by omega)
  · exact iff_of_false (by simp) (by omega)

theorem cmpNat_eq_iff (x y : Nat) : cmpNat x y = .eq ↔ x = y := by
  unfold cmpNat
  split_ifs with h1 h2
  · exact iff_of_false (by simp) (by omega)
  · exact iff_of_true rfl h2
  · exact iff_of_false (by simp) (by omega)

theorem cmpNat_gt_iff (x y : Nat) : cmpNat x y = .gt ↔ y < x := by
  unfold cmpNat
  split_ifs with h1 h2
  · exact iff_of_false (by simp) (by omega)
  · exact iff_of_false (by simp) (by omega)
  · exact iff_of_true rfl (by omega)

theorem cmpNat_ne_gt_iff (x y : Nat) : cmpNat x y ≠ .gt ↔ x ≤ y := by
  rw [Ne, cmpNat_gt_iff]
  omega

theorem cmpNat_swap (x y : Nat) : cmpNat x y = (cmpNat y x).swap := by
  rcases Nat.lt_trichotomy x y with h | h | h
  · rw [(cmpNat_lt_iff x y).mpr h, (cmpNat_gt_iff y x).mpr h]
    rfl
  · rw [(cmpNat_eq_iff x y).mpr h, (cmpNat_eq_iff y x).mpr h.symm]
    rfl
  · rw [(cmpNat_gt_iff x y).mpr h, (cmpNat_lt_iff y x).mpr h]
    rfl

theorem cmpChar_swap (c d : Char) : cmpChar c d = (cmpChar d c).swap := cmpNat_swap _ _

theorem cmpChar_eq_iff (c d : Char) : cmpChar c d = .eq ↔ c = d := by
  unfold cmpChar
  rw [cmpNat_eq_iff]
  constructor
  · intro h
    exact Char.ext (UInt32.ext h)
  · intro h
    rw [h]

theorem cmpChars_swap : ∀ (a b : List Char), cmpChars a b = (cmpChars b a).swap
  | [], [] => rfl
  | [], _ :: _ => rfl
  | _ :: _, [] => rfl
  | a :: as, b :: bs => by
    simp only [cmpChars]
    rw [cmpChar_swap, cmpChars_swap as bs, Ordering_then_swap]

theorem Ordering_then_eq_iff (o p : Ordering) : o.then p = .eq ↔ o = .eq ∧ p = .eq := by
  cases o <;> simp [Ordering.then]

theorem cmpChars_eq_iff : ∀ (a b : List Char), cmpChars a b = .eq ↔ a = b
  | [], [] => by simp [cmpChars]
  | [], _ :: _ => by simp [cmpChars]
  | _ :: _, [] => by simp [cmpChars]
  | a :: as, b :: bs => by
    simp only [cmpChars, Ordering_then_eq_iff, cmpChar_eq_iff, cmpChars_eq_iff as bs]
    constructor
    · rintro ⟨rfl, rfl⟩
      rfl
    · rintro h
      cases h
      exact ⟨rfl, rfl⟩

theorem cmpChars_trans : ∀ (a b c : List Char),
    cmpChars a b ≠ .gt → cmpChars b c ≠ .gt → cmpChars a c ≠ .gt
  | [], _, [] => by simp [cmpChars]
  | [], _, _ :: _ => by simp [cmpChars]
  | a :: as, b, [] => by
    intro h1 h2
    cases b with
    | nil => simp [cmpChars] at h1
    | cons x xs => simp [cmpChars] at h2
  | a :: as, b, c :: cs => by
    intro h1 h2
    cases b with
    | nil => simp [cmpChars] at h1
    | cons x xs =>
      simp only [cmpChars] at h1 h2 ⊢
      cases hax : cmpChar a x with
      | lt =>
        have hxn : a.toNat < x.toNat := (cmpNat_lt_iff _ _).mp hax
        cases hxc : cmpChar x c with
        | lt =>
          have hcn : x.toNat < c.toNat := (cmpNat_lt_iff _ _).mp hxc
          have hl : cmpChar a c = .lt := (cmpNat_lt_iff _ _).mpr (by omega)
          rw [hl]
          simp [Ordering.then]
        | eq =>
          have hcn : x.toNat = c.toNat := (cmpNat_eq_iff _ _).mp hxc
          have hl : cmpChar a c = .lt := (cmpNat_lt_iff _ _).mpr (by omega)
          rw [hl]
          simp [Ordering.then]
        | gt => rw [hxc] at h2; simp [Ordering.then] at h2
      | eq =>
        have haxn : a.toNat = x.toNat := (cmpNat_eq_iff _ _).mp hax
        rw [hax] at h1
        simp only [Ordering.then] at h1
        cases hxc : cmpChar x c with
        | lt =>
          have hl : cmpChar a c = .lt := (cmpNat_lt_iff _ _).mpr
            (by have := (cmpNat_lt_iff _ _).mp hxc; omega)
          rw [hl]
          simp [Ordering.then]
        | eq =>
          have hl : cmpChar a c = .eq := (cmpNat_eq_iff _ _).mpr
            (by have := (cmpNat_eq_iff _ _).mp hxc; omega)
          rw [hl]
          rw [hxc] at h2
          simp only [Ordering.then] at h2 ⊢
          exact cmpChars_trans as xs cs h1 h2
        | gt =>
          rw [hxc] at h2
          simp [Ordering.then] at h2
      | gt => rw [hax] at h1; simp [Ordering.then] at h1

theorem Ordering_swap_ne_gt (o : Ordering) : o.swap ≠ .gt ↔ o ≠ .lt := by
  cases o <;> simp [Ordering.swap]

theorem Ordering_swap_eq_gt (o : Ordering) : o.swap = .gt ↔ o = .lt := by
  cases o <;> simp [Ordering.swap]

theorem Ordering_swap_ne_lt (o : Ordering) : o.swap ≠ .lt ↔ o ≠ .gt := by
  cases o <;> simp [Ordering.swap]

theorem cmpOptTop_swap (a b : Option Nat) : cmpOptTop a b = (cmpOptTop b a).swap := by
  cases a <;> cases b <;> first | rfl | exact cmpNat_swap _ _

theorem cmpOptBot_swap (a b : Option Nat) : cmpOptBot a b = (cmpOptBot b a).swap := by
  cases a <;> cases b <;> first | rfl | exact cmpNat_swap _ _

theorem cmpOptTop_eq_iff (a b : Option Nat) : cmpOptTop a b = .eq ↔ a = b := by
  cases a <;> cases b <;> simp [cmpOptTop, cmpNat_eq_iff]

theorem cmpOptBot_eq_iff (a b : Option Nat) : cmpOptBot a b = .eq ↔ a = b := by
  cases a <;> cases b <;> simp [cmpOptBot, cmpNat_eq_iff]

theorem cmpOptTop_lt_trans (a b c : Option Nat) :
    cmpOptTop a b = .lt → cmpOptTop b c = .lt → cmpOptTop a c = .lt := by
  cases a <;> cases b <;> cases c <;>
    simp [cmpOptTop, cmpNat_lt_iff] <;> omega

theorem cmpOptBot_lt_trans (a b c : Option Nat) :
    cmpOptBot a b = .lt → cmpOptBot b c = .lt → cmpOptBot a c = .lt := by
  cases a <;> cases b <;> cases c <;>
    simp [cmpOptBot, cmpNat_lt_iff] <;> omega

/-- Transitivity of the sort-before-or-tied relation of a lexicographic
two-part comparator, given the usual facts about its parts. -/
theorem lexThen_trans {α : Type} (f g : α → α → Ordering)
    (hEq : ∀ a b, f a b = .eq → ∀ c, f b c = f a c ∧ f c b = f c a)
    (hLt : ∀ a b c, f a b = .lt → f b c = .lt → f a c = .lt)
    (hg : ∀ a b c, g a b ≠ .gt → g b c ≠ .gt → g a c ≠ .gt)
    (a b c : α)
    (h1 : (f a b).then (g a b) ≠ .gt) (h2 : (f b c).then (g b c) ≠ .gt) :
    (f a c).then (g a c) ≠ .gt := by
  cases hab : f a b with
  | gt => rw [hab] at h1; simp [Ordering.then] at h1
  | lt =>
    cases hbc : f b c with
    | gt => rw [hbc] at h2; simp [Ordering.then] at h2
    | lt =>
      rw [hLt a b c hab hbc]
      simp [Ordering.then]
    | eq =>
      rw [(hEq b c hbc a).2, hab]
      simp [Ordering.then]
  | eq =>
    rw [hab] at h1
    simp only [Ordering.then] at h1
    cases hbc : f b c with
    | gt => rw [hbc] at h2; simp [Ordering.then] at h2
    | lt =>
      rw [← ((hEq a b hab c).1), hbc]
      simp [Ordering.then]
    | eq =>
      rw [hbc] at h2
      simp only [Ordering.then] at h2
      have hac : f a c = .eq := by rw [← ((hEq a b hab c).1), hbc]
      rw [hac]
      simp only [Ordering.then]
      exact hg a b c h1 h2

theorem listingCmp_swap (a b : ExpThread) : listingCmp a b = (listingCmp b a).swap := by
  unfold listingCmp
  rw [cmpOptTop_swap, cmpChars_swap, Ordering_then_swap]

theorem previewCmp_swap (a b : ExpThread) : previewCmp a b = (previewCmp b a).swap := by
  unfold previewCmp
  rw [cmpOptBot_swap, cmpChars_swap, Ordering_then_swap]

theorem listingRel_trans (a b c : ExpThread) :
    ListingRel a b → ListingRel b c → ListingRel a c := by
  intro h1 h2
  unfold ListingRel listingCmp at *
  refine lexThen_trans (fun s t => cmpOptTop s.firstDate t.firstDate)
    (fun s t => cmpChars s.id t.id) ?_ ?_ ?_ a b c h1 h2
  · intro s t hst u
    dsimp only at hst ⊢
    have : s.firstDate = t.firstDate := (cmpOptTop_eq_iff _ _).mp hst
    rw [this]
    exact ⟨rfl, rfl⟩
  · intro s t u hst htu
    exact cmpOptTop_lt_trans _ _ _ hst htu
  · intro s t u hst htu
    exact cmpChars_trans _ _ _ hst htu

theorem previewCmpRev_trans (a b c : ExpThread) :
    previewCmp a b ≠ .gt → previewCmp b c ≠ .gt → previewCmp a c ≠ .gt := by
  intro h1 h2
  unfold previewCmp at *
  refine lexThen_trans (fun s t => cmpOptBot s.lastDate t.lastDate)
    (fun s t => cmpChars s.id t.id) ?_ ?_ ?_ a b c h1 h2
  · intro s t hst u
    dsimp only at hst ⊢
    have : s.lastDate = t.lastDate := (cmpOptBot_eq_iff _ _).mp hst
    rw [this]
    exact ⟨rfl, rfl⟩
  · intro s t u hst htu
    exact cmpOptBot_lt_trans _ _ _ hst htu
  · intro s t u hst htu
    exact cmpChars_trans _ _ _ hst htu

theorem previewRel_trans (a b c : ExpThread) :
    PreviewRel a b → PreviewRel b c → PreviewRel a c := by
  intro h1 h2
  unfold PreviewRel at *
  rw [previewCmp_swap, Ordering_swap_ne_lt] at h1 h2 ⊢
  exact previewCmpRev_trans c b a h2 h1

instance : IsTrans ExpThread ListingRel := ⟨listingRel_trans⟩

instance : IsTrans ExpThread PreviewRel := ⟨previewRel_trans⟩

instance : IsTotal ExpThread ListingRel := by
  refine ⟨fun a b => ?_⟩
  by_cases h : listingCmp a b = .gt
  · right
    unfold ListingRel
    rw [listingCmp_swap] at h
    rw [Ordering_swap_eq_gt] at h
    rw [h]
    simp
  · exact Or.inl h

instance : IsTotal ExpThread PreviewRel := by
  refine ⟨fun a b => ?_⟩
  by_cases h : previewCmp a b = .lt
  · right
    unfold PreviewRel
    rw [previewCmp_swap] at h
    have : previewCmp b a = .gt := by
      cases hba : previewCmp b a <;> rw [hba] at h <;> simp [Ordering.swap] at h ⊢
    rw [this]
    simp
  · exact Or.inl h

/-- The sort of `render_folder_html` (full folder listing page). -/
def folderListingSorted (threads : List ExpThread) : List ExpThread :=
  List.insertionSort ListingRel threads

/-- The per-folder sort of `main` feeding the index preview cards. -/
def previewSorted (threads : List ExpThread) : List ExpThread :=
  List.insertionSort PreviewRel threads

/-- Case-insensitive folder-name order of `folder_sections`. -/
def byNameLower (f g : PyFolder) : Prop :=
  cmpChars (pyLower f.name) (pyLower g.name) ≠ .gt

instance : DecidableRel byNameLower := fun f g =>
  inferInstanceAs (Decidable (cmpChars (pyLower f.name) (pyLower g.name) ≠ .gt))

/-- The folder list `main` renders: buckets with preview-sorted threads,
sorted case-insensitively by display name. -/
def folderSections (threads : List ExpThread) : List PyFolder :=
  List.insertionSort byNameLower
    ((buildFolders threads).map (fun f => { f with threads := previewSorted f.threads }))

/-! ### C3 and C8: dropped empty threads, counts -/

/-- A message with every optional field absent, for concrete witnesses. -/
def blankMsg : PyMsg :=
  { id := none, fromName := none, toName := none, fromStatus := none,
    toStatus := none, date := none, content := none, images := [],
    attachments := [], inReplyTo := none }

/-- A record whose message list is present but empty. -/
def emptyMsgRecord : RawRecord :=
  { stem := "1".data, theadId := none, topic := none, folder := none,
    views := none, messages := some [] }

/-- A record with a single blank message. -/
def oneMsgRecord : RawRecord :=
  { stem := "2".data, theadId := none, topic := none, folder := none,
    views := none, messages := some [blankMsg] }

theorem processRecord_none_of_empty (pdCore : List Char → Option Nat)
    (ue : List Char → List Char) (r : RawRecord) (h : r.messages.getD [] = []) :
    processRecord pdCore ue r = none := by
  unfold processRecord
  rw [h]

theorem processRecord_messageCount (pdCore : List Char → Option Nat)
    (ue : List Char → List Char) (r : RawRecord) (t : ExpThread)
    (h : processRecord pdCore ue r = some t) :
    t.messageCount = (r.messages.getD []).length := by
  unfold processRecord at h
  cases hm : r.messages.getD [] with
  | nil => rw [hm] at h; cases h
  | cons m0 rest =>
    rw [hm] at h
    have := Option.some.inj h
    rw [← this]

theorem mainThreads_mem_count (pdCore : List Char → Option Nat)
    (ue : List Char → List Char) (rs : List RawRecord) (t : ExpThread)
    (h : t ∈ mainThreads pdCore ue rs) : 1 ≤ t.messageCount := by
  obtain ⟨r, _, hr⟩ := List.mem_filterMap.mp h
  have hc := processRecord_messageCount pdCore ue r t hr
  cases hm : r.messages.getD [] with
  | nil =>
    rw [processRecord_none_of_empty pdCore ue r hm] at hr
    cases hr
  | cons m0 rest =>
    rw [hm] at hc
    rw [hc]
    simp

theorem addThreadToFolders_mem (acc : List PyFolder) (t : ExpThread) (f : PyFolder)
    (hf : f ∈ addThreadToFolders acc t) (x : ExpThread) (hx : x ∈ f.threads) :
    (∃ f0 ∈ acc, x ∈ f0.threads) ∨ x = t := by
  unfold addThreadToFolders at hf
  by_cases h : acc.any (fun g => g.name == folderNameOf t) = true
  · rw [if_pos h] at hf
    obtain ⟨g, hg, hmap⟩ := List.mem_map.mp hf
    by_cases hgn : (g.name == folderNameOf t) = true
    · rw [if_pos hgn] at hmap
      rw [← hmap] at hx
      simp only at hx
      rcases List.mem_append.mp hx with h1 | h1
      · exact Or.inl ⟨g, hg, h1⟩
      · simp at h1
        exact Or.inr h1
    · rw [if_neg hgn] at hmap
      rw [← hmap] at hx
      exact Or.inl ⟨g, hg, hx⟩
  · rw [if_neg h] at hf
    rcases List.mem_append.mp hf with h1 | h1
    · exact Or.inl ⟨f, h1, hx⟩
    · simp only [List.mem_singleton] at h1
      rw [h1] at hx
      simp only [List.mem_singleton] at hx
      exact Or.inr hx

theorem foldl_addThread_mem :
    ∀ (ts : List ExpThread) (acc : List PyFolder) (f : PyFolder),
      f ∈ ts.foldl addThreadToFolders acc → ∀ x ∈ f.threads,
        (∃ f0 ∈ acc, x ∈ f0.threads) ∨ x ∈ ts := by
  intro ts
  induction ts with
  | nil =>
    intro acc f hf x hx
    exact Or.inl ⟨f, hf, hx⟩
  | cons t ts ih =>
    intro acc f hf x hx
    rcases ih (addThreadToFolders acc t) f hf x hx with ⟨f0, hf0, hx0⟩ | hmem
    · rcases addThreadToFolders_mem acc t f0 hf0 x hx0 with h | h
      · exact Or.inl h
      · rw [h]
        exact Or.inr (List.mem_cons_self t ts)
    · exact Or.inr (List.mem_cons_of_mem _ hmem)

theorem buildFolders_mem (ts : List ExpThread) (f : PyFolder) (hf : f ∈ buildFolders ts)
    (x : ExpThread) (hx : x ∈ f.threads) : x ∈ ts := by
  rcases foldl_addThread_mem ts [] f hf x hx with ⟨f0, hf0, _⟩ | h
  · simp at hf0
  · exact h

theorem folderSections_mem (ts : List ExpThread) (f : PyFolder)
    (hf : f ∈ folderSections ts) (x : ExpThread) (hx : x ∈ f.threads) : x ∈ ts := by
  unfold folderSections at hf
  rw [List.mem_insertionSort] at hf
  obtain ⟨f0, hf0, heq⟩ := List.mem_map.mp hf
  rw [← heq] at hx
  simp only at hx
  unfold previewSorted at hx
  rw [List.mem_insertionSort] at hx
  exact buildFolders_mem ts f0 hf0 x hx

/-- Claim C3: a thread record with an empty (or absent) message list is
dropped by `main` before model building: it builds no thread, contributes
nothing to the thread list (hence no thread page is written for it), and no
folder of the rendered sections contains anything from it — every thread that
does reach a folder comes from `mainThreads` and has at least one message. -/
theorem empty_thread_dropped :
    (∀ pdCore ue r, r.messages.getD [] = [] → processRecord pdCore ue r = none) ∧
    (∀ pdCore ue (rs1 rs2 : List RawRecord) r, r.messages.getD [] = [] →
      mainThreads pdCore ue (rs1 ++ r :: rs2) = mainThreads pdCore ue (rs1 ++ rs2)) ∧
    (∀ pdCore ue rs f t, f ∈ folderSections (mainThreads pdCore ue rs) →
      t ∈ f.threads → t ∈ mainThreads pdCore ue rs) ∧
    (∀ pdCore ue rs t, t ∈ mainThreads pdCore ue rs → 1 ≤ t.messageCount) := by
  refine ⟨processRecord_none_of_empty, ?_, ?_, mainThreads_mem_count⟩
  · intro pd ue rs1 rs2 r h
    unfold mainThreads
    rw [List.filterMap_append, List.filterMap_append, List.filterMap_cons,
      processRecord_none_of_empty pd ue r h]
  · intro pd ue rs f t hf ht
    exact folderSections_mem (mainThreads pd ue rs) f hf t ht

/-- Witness for C3: a two-record list where the first record has no messages
produces exactly one thread, built from the second record. -/
theorem empty_thread_dropped_witness :
    (processRecord (fun _ => none) id emptyMsgRecord = none) ∧
    (mainThreads (fun _ => none) id [emptyMsgRecord, oneMsgRecord] =
      mainThreads (fun _ => none) id [oneMsgRecord]) := by
  constructor
  · exact empty_thread_dropped.1 (fun _ => none) id _ (by decide)
  · exact empty_thread_dropped.2.1 (fun _ => none) id [] [oneMsgRecord]
      emptyMsgRecord (by decide)

/-- The reply count shown in a folder table row (`render_folder_html`):
`max(thread.get("message_count", 0) - 1, 0)` over Python integers. -/
def renderReplies (t : ExpThread) : Int := max ((t.messageCount : Int) - 1) 0

/-- Claim C8: the displayed reply count is `max(message_count - 1, 0)`, never
negative, and `message_count` is the length of the record's message list. -/
theorem reply_count_spec :
    (∀ pdCore ue r t, processRecord pdCore ue r = some t →
      t.messageCount = (r.messages.getD []).length) ∧
    (∀ t, renderReplies t = max ((t.messageCount : Int) - 1) 0) ∧
    (∀ t, 0 ≤ renderReplies t) := by
  refine ⟨processRecord_messageCount, fun t => rfl, fun t => le_max_right _ _⟩

/-- Witness for C8 on a one-message record: count 1, zero replies. -/
theorem reply_count_spec_witness :
    ∃ t, processRecord (fun _ => none) id oneMsgRecord = some t ∧
      t.messageCount = 1 ∧ renderReplies t = 0 := by
  cases h : processRecord (fun _ => none) id oneMsgRecord with
  | none => exact absurd h (by decide)
  | some t =>
    have hc := reply_count_spec.1 (fun _ => none) id _ t h
    refine ⟨t, rfl, ?_, ?_⟩
    · rw [hc]
      decide
    · rw [reply_count_spec.2.1 t, hc]
      decide

/-! ### C4: the two ordering policies -/

/-- Modelled from the claim text of C4: strict date order for the ascending
listing, where an absent (unparsed) date sorts as if it were the latest
possible date. -/
def SpecDateLTNoneLatest (a b : Option Nat) : Prop :=
  match a, b with
  | some x, some y => x < y
  | some _, none => True
  | none, _ => False

/-- Modelled from the claim text of C4: strict reverse date order for the
descending preview, where an absent date sorts as if it were the earliest
possible date. -/
def SpecDateGTNoneEarliest (a b : Option Nat) : Prop :=
  match a, b with
  | some x, some y => y < x
  | some _, none => True
  | none, _ => False

/-- Modelled from the claim text of C4: thread identifiers ascending, i.e.
lexicographic comparison by code point. -/
def SpecIdLE : List Char → List Char → Prop
  | [], _ => True
  | _ :: _, [] => False
  | a :: as, b :: bs => a.toNat < b.toNat ∨ (a.toNat = b.toNat ∧ SpecIdLE as bs)

theorem cmpChars_ne_gt_iff : ∀ (a b : List Char), cmpChars a b ≠ .gt ↔ SpecIdLE a b
  | [], [] => by simp [cmpChars, SpecIdLE]
  | [], _ :: _ => by simp [cmpChars, SpecIdLE]
  | _ :: _, [] => by simp [cmpChars, SpecIdLE]
  | a :: as, b :: bs => by
    simp only [cmpChars, SpecIdLE]
    cases hab : cmpChar a b with
    | lt =>
      refine iff_of_true (by simp [Ordering.then]) (Or.inl ((cmpNat_lt_iff _ _).mp hab))
    | eq =>
      have heq : a.toNat = b.toNat := (cmpNat_eq_iff _ _).mp hab
      simp only [Ordering.then]
      constructor
      · intro h
        exact Or.inr ⟨heq, (cmpChars_ne_gt_iff as bs).mp h⟩
      · rintro (h | ⟨-, h⟩)
        · omega
        · exact (cmpChars_ne_gt_iff as bs).mpr h
    | gt =>
      have hgt : b.toNat < a.toNat := (cmpNat_gt_iff _ _).mp hab
      refine iff_of_false (by simp [Ordering.then]) ?_
      rintro (h | ⟨h, -⟩) <;> omega

theorem cmpChars_ne_lt_iff (a b : List Char) : cmpChars a b ≠ .lt ↔ SpecIdLE b a := by
  rw [cmpChars_swap, Ordering_swap_ne_lt, cmpChars_ne_gt_iff]

theorem cmpOptTop_lt_iff (a b : Option Nat) :
    cmpOptTop a b = .lt ↔ SpecDateLTNoneLatest a b := by
  cases a <;> cases b <;>
    simp [cmpOptTop, SpecDateLTNoneLatest, cmpNat_lt_iff]

theorem cmpOptBot_gt_iff (a b : Option Nat) :
    cmpOptBot a b = .gt ↔ SpecDateGTNoneEarliest a b := by
  cases a <;> cases b <;>
    simp [cmpOptBot, SpecDateGTNoneEarliest, cmpNat_gt_iff]

theorem listingRel_iff (a b : ExpThread) :
    ListingRel a b ↔ (SpecDateLTNoneLatest a.firstDate b.firstDate ∨
      (a.firstDate = b.firstDate ∧ SpecIdLE a.id b.id)) := by
  unfold ListingRel listingCmp
  cases hd : cmpOptTop a.firstDate b.firstDate with
  | lt =>
    refine iff_of_true (by simp [Ordering.then]) (Or.inl ((cmpOptTop_lt_iff _ _).mp hd))
  | eq =>
    have heq : a.firstDate = b.firstDate := (cmpOptTop_eq_iff _ _).mp hd
    simp only [Ordering.then]
    constructor
    · intro h
      exact Or.inr ⟨heq, (cmpChars_ne_gt_iff _ _).mp h⟩
    · rintro (h | ⟨-, h⟩)
      · exfalso
        have hlt : cmpOptTop a.firstDate b.firstDate = .lt :=
          (cmpOptTop_lt_iff _ _).mpr h
        rw [hd] at hlt
        cases hlt
      · exact (cmpChars_ne_gt_iff _ _).mpr h
  | gt =>
    refine iff_of_false (by simp [Ordering.then]) ?_
    rintro (h | ⟨h, -⟩)
    · rw [(cmpOptTop_lt_iff a.firstDate b.firstDate).mpr h] at hd
      cases hd
    · rw [(cmpOptTop_eq_iff a.firstDate b.firstDate).mpr h] at hd
      cases hd

theorem previewRel_iff (a b : ExpThread) :
    PreviewRel a b ↔ (SpecDateGTNoneEarliest a.lastDate b.lastDate ∨
      (a.lastDate = b.lastDate ∧ SpecIdLE b.id a.id)) := by
  unfold PreviewRel previewCmp
  cases hd : cmpOptBot a.lastDate b.lastDate with
  | gt =>
    refine iff_of_true (by simp [Ordering.then]) (Or.inl ((cmpOptBot_gt_iff _ _).mp hd))
  | eq =>
    have heq : a.lastDate = b.lastDate := (cmpOptBot_eq_iff _ _).mp hd
    simp only [Ordering.then]
    constructor
    · intro h
      exact Or.inr ⟨heq, (cmpChars_ne_lt_iff _ _).mp h⟩
    · rintro (h | ⟨-, h⟩)
      · exfalso
        have hgt : cmpOptBot a.lastDate b.lastDate = .gt :=
          (cmpOptBot_gt_iff _ _).mpr h
        rw [hd] at hgt
        cases hgt
      · exact (cmpChars_ne_lt_iff _ _).mpr h
  | lt =>
    refine iff_of_false (by simp [Ordering.then]) ?_
    rintro (h | ⟨h, -⟩)
    · rw [(cmpOptBot_gt_iff a.lastDate b.lastDate).mpr h] at hd
      cases hd
    · rw [(cmpOptBot_eq_iff a.lastDate b.lastDate).mpr h] at hd
      cases hd

/-- Claim C4: the folder listing sort is a permutation sorted ascending by
first date with absent dates pushed to the end (tie-break: identifier
ascending); the index preview sort is a permutation sorted descending by last
date with absent dates pushed to the end (tie-break: identifier); the two
policies handle the absent date in opposite directions, and in each sorted
output every thread with an absent date follows every thread bearing one. -/
theorem folder_orderings (l : List ExpThread) :
    (folderListingSorted l).Perm l ∧
    List.Sorted ListingRel (folderListingSorted l) ∧
    (previewSorted l).Perm l ∧
    List.Sorted PreviewRel (previewSorted l) ∧
    (∀ a b, ListingRel a b ↔ (SpecDateLTNoneLatest a.firstDate b.firstDate ∨
      (a.firstDate = b.firstDate ∧ SpecIdLE a.id b.id))) ∧
    (∀ a b, PreviewRel a b ↔ (SpecDateGTNoneEarliest a.lastDate b.lastDate ∨
      (a.lastDate = b.lastDate ∧ SpecIdLE b.id a.id))) ∧
    (∀ x y, [x, y].Sublist (folderListingSorted l) → x.firstDate = none →
      y.firstDate = none) ∧
    (∀ x y, [x, y].Sublist (previewSorted l) → x.lastDate = none →
      y.lastDate = none) := by
  refine ⟨List.perm_insertionSort ListingRel l, List.sorted_insertionSort ListingRel l,
    List.perm_insertionSort PreviewRel l, List.sorted_insertionSort PreviewRel l,
    listingRel_iff, previewRel_iff, ?_, ?_⟩
  · intro x y hsub hx
    have hp := (List.sorted_insertionSort ListingRel l).sublist hsub
    have hr : ListingRel x y := List.rel_of_pairwise_cons hp (List.mem_singleton.mpr rfl)
    rcases (listingRel_iff x y).mp hr with h | ⟨h, -⟩
    · rw [hx] at h
      cases h
    · rw [← h, hx]
  · intro x y hsub hx
    have hp := (List.sorted_insertionSort PreviewRel l).sublist hsub
    have hr : PreviewRel x y := List.rel_of_pairwise_cons hp (List.mem_singleton.mpr rfl)
    rcases (previewRel_iff x y).mp hr with h | ⟨h, -⟩
    · rw [hx] at h
      cases h
    · rw [← h, hx]

/-- A minimal thread for concrete ordering witnesses. -/
def sampleThread (idc : Char) (fd ld : Option Nat) : ExpThread :=
  { id := [idc], title := [], folder := [], folderSlug := [], views := none,
    messageCount := 1, firstDate := fd, lastDate := ld, firstAuthor := none,
    snippet := [] }

/-- Witness for C4 on four concrete threads with mixed present/absent dates:
the absent-date threads land at the end of both sorted outputs. -/
theorem folder_orderings_witness :
    (sampleThread 'd' none none).firstDate = none ∧
    (sampleThread 'b' none none).lastDate = none := by
  constructor
  · exact (folder_orderings [sampleThread 'd' none none, sampleThread 'b' none none,
      sampleThread 'a' (some 10) (some 30),
      sampleThread 'c' (some 20) (some 5)]).2.2.2.2.2.2.1
      (sampleThread 'b' none none) (sampleThread 'd' none none) (by decide) (by decide)
  · exact (folder_orderings [sampleThread 'd' none none, sampleThread 'b' none none,
      sampleThread 'a' (some 10) (some 30),
      sampleThread 'c' (some 20) (some 5)]).2.2.2.2.2.2.2
      (sampleThread 'd' none none) (sampleThread 'b' none none) (by decide) (by decide)

/-! ### C6: `format_name_html` -/

/-- Python `html.escape(s)` (quote=True), one character at a time; the
sequential `str.replace` calls of the stdlib implementation agree with this
per-character map because no replacement output contains a character that a
later replacement rewrites at a position introduced by an earlier one. -/
def escChar (c : Char) : List Char :=
  if c = '&' then "&amp;".data
  else if c = '<' then "&lt;".data
  else if c = '>' then "&gt;".data
  else if c = Char.ofNat 34 then "&quot;".data
  else if c = Char.ofNat 39 then "&#x27;".data
  else [c]

def pyHtmlEscape (l : List Char) : List Char := (l.map escChar).flatten

/-- The trailing-parenthetical split of `format_name_html`: a name ending in
`)` and containing `(` is split at the first `(` when the segment from there
has balanced counts of `(` and `)`; the primary falls back to the whole name
when the part before `(` strips to nothing. -/
def parenSplit (raw : List Char) : List Char × List Char :=
  if raw.getLast? = some ')' ∧ '(' ∈ raw then
    if (pyStrip (raw.drop (raw.findIdx (fun c => c == '(')))).count '(' =
        (pyStrip (raw.drop (raw.findIdx (fun c => c == '(')))).count ')' then
      ((if pyStrip (raw.take (raw.findIdx (fun c => c == '('))) = [] then raw
        else pyStrip (raw.take (raw.findIdx (fun c => c == '(')))),
       pyStrip (raw.drop (raw.findIdx (fun c => c == '('))))
    else (raw, [])
  else (raw, [])

/-- Python falsy test `not local_status`. -/
def statusFalsy (status : Option (List Char)) : Bool :=
  match status with
  | none => true
  | some s => s.isEmpty

/-- The check `raw.lower().endswith(" unread")`. -/
def endsUnreadLower (raw : List Char) : Bool :=
  " unread".data.isSuffixOf (pyLower raw)

/-- The (primary, extra, status) decomposition computed by `format_name_html`
before HTML assembly. -/
def nameParts (name : Option (List Char)) (status : Option (List Char)) :
    List Char × List Char × Option (List Char) :=
  if pyStrip (name.getD []) = [] then ("Unknown".data, [], status)
  else
    if statusFalsy status = true ∧ endsUnreadLower (pyStrip (name.getD [])) = true then
      ((parenSplit (pyRstrip ((pyStrip (name.getD [])).take
          ((pyStrip (name.getD [])).length - 6)))).1,
       (parenSplit (pyRstrip ((pyStrip (name.getD [])).take
          ((pyStrip (name.getD [])).length - 6)))).2,
       some "unread".data)
    else
      ((parenSplit (pyStrip (name.getD []))).1,
       (parenSplit (pyStrip (name.getD []))).2,
       status)

/-- The lowercase normalisation `if local_status and local_status.lower() ==
"unread": local_status = "unread"`. -/
def normStatus (st : Option (List Char)) : Option (List Char) :=
  match st with
  | none => none
  | some s => if s ≠ [] ∧ pyLower s = "unread".data then some "unread".data else some s

def spanHtml (cls : List Char) (inner : List Char) : List Char :=
  "<span class=\"".data ++ cls ++ "\">".data ++ inner ++ "</span>".data

/-- Embedding of `format_name_html`. -/
def format_name_html (name : Option (List Char)) (primaryClass : List Char)
    (status : Option (List Char)) : List Char :=
  spanHtml primaryClass (pyHtmlEscape (nameParts name status).1) ++
    (if (nameParts name status).2.1 ≠ [] then
      ' ' :: spanHtml "msg-recipient-extra".data (pyHtmlEscape (nameParts name status).2.1)
    else []) ++
    (match normStatus (nameParts name status).2.2 with
     | some s => if s ≠ [] then ' ' :: spanHtml "msg-status".data (pyHtmlEscape s) else []
     | none => [])

/-- Counterexample to C6 as stated: an empty or absent name with an explicitly
supplied status renders the "Unknown" placeholder together with a status
span, not bare. -/
theorem format_name_empty_status_cx :
    format_name_html none "msg-author-name".data (some "unread".data) =
      ("<span class=\"msg-author-name\">Unknown</span>" ++
        " <span class=\"msg-status\">unread</span>").data ∧
    format_name_html none "msg-author-name".data (some "unread".data) ≠
      ("<span class=\"msg-author-name\">Unknown</span>").data := by
  constructor
  · decide
  · decide

theorem pyLower_append (a b : List Char) : pyLower (a ++ b) = pyLower a ++ pyLower b :=
  List.map_append _ a b

theorem endsUnreadLower_of_literal (raw : List Char)
    (h : " unread".data.isSuffixOf raw = true) : endsUnreadLower raw = true := by
  rw [List.isSuffixOf_iff_suffix] at h
  obtain ⟨t, ht⟩ := h
  unfold endsUnreadLower
  rw [List.isSuffixOf_iff_suffix, ← ht, pyLower_append]
  exact List.suffix_append _ _

theorem suffix_ne_nil (raw : List Char)
    (h : " unread".data.isSuffixOf raw = true) : raw ≠ [] := by
  rw [List.isSuffixOf_iff_suffix] at h
  obtain ⟨t, ht⟩ := h
  intro hr
  rw [hr] at ht
  simp at ht

/-- Claim C6 amended: the "unread" suffix rule and the balanced-parenthetical
rule hold as claimed (with the status suffix stripped first, so both may apply
to one string); an empty or absent name renders as the bare "Unknown"
placeholder when no explicit status is supplied, while an explicitly supplied
non-empty status is still rendered after the placeholder. -/
theorem format_name_spec :
    (∀ name status, statusFalsy status = true →
      " unread".data.isSuffixOf (pyStrip (name.getD [])) = true →
      nameParts name status =
        ((parenSplit (pyRstrip ((pyStrip (name.getD [])).take
            ((pyStrip (name.getD [])).length - 6)))).1,
         (parenSplit (pyRstrip ((pyStrip (name.getD [])).take
            ((pyStrip (name.getD [])).length - 6)))).2,
         some "unread".data)) ∧
    (∀ raw, raw.getLast? = some ')' → '(' ∈ raw →
      (pyStrip (raw.drop (raw.findIdx (fun c => c == '(')))).count '(' =
        (pyStrip (raw.drop (raw.findIdx (fun c => c == '(')))).count ')' →
      parenSplit raw =
        ((if pyStrip (raw.take (raw.findIdx (fun c => c == '('))) = [] then raw
          else pyStrip (raw.take (raw.findIdx (fun c => c == '(')))),
         pyStrip (raw.drop (raw.findIdx (fun c => c == '('))))) ∧
    (∀ cls, format_name_html none cls none = spanHtml cls "Unknown".data) ∧
    (∀ cls, format_name_html (some []) cls none = spanHtml cls "Unknown".data) ∧
    (∀ cls s, s ≠ [] →
      format_name_html none cls (some s) =
        spanHtml cls "Unknown".data ++ ' ' :: spanHtml "msg-status".data
          (pyHtmlEscape (if pyLower s = "unread".data then "unread".data else s))) := by
  refine ⟨?_, ?_, ?_, ?_, ?_⟩
  · intro name status hstat hsuf
    unfold nameParts
    rw [if_neg (by
      intro h
      exact suffix_ne_nil _ hsuf h)]
    rw [if_pos ⟨hstat, endsUnreadLower_of_literal _ hsuf⟩]
  · intro raw hlast hmem hcount
    unfold parenSplit
    rw [if_pos ⟨hlast, hmem⟩, if_pos hcount]
  · intro cls
    simp [format_name_html, nameParts, normStatus, pyStrip, pyHtmlEscape, escChar]
  · intro cls
    simp [format_name_html, nameParts, normStatus, pyStrip, pyHtmlEscape, escChar]
  · intro cls s hs
    have hparts : nameParts none (some s) = ("Unknown".data, [], some s) := by
      unfold nameParts
      rw [if_pos (show pyStrip ((none : Option (List Char)).getD []) = [] from rfl)]
    have hesc : pyHtmlEscape "Unknown".data = "Unknown".data := by decide
    by_cases hlow : pyLower s = "unread".data
    · have hns : normStatus (some s) = some "unread".data := by
        show (if s ≠ [] ∧ pyLower s = "unread".data then some "unread".data
          else some s) = some "unread".data
        rw [if_pos ⟨hs, hlow⟩]
      unfold format_name_html
      rw [hparts]
      simp only [hns, hesc]
      simp [hlow]
    · have hns : normStatus (some s) = some s := by
        show (if s ≠ [] ∧ pyLower s = "unread".data then some "unread".data
          else some s) = some s
        rw [if_neg (by
          rintro ⟨-, h⟩
          exact hlow h)]
      unfold format_name_html
      rw [hparts]
      simp only [hns, hesc]
      simp [hlow, hs]

/-- Witness for C6 amended, on "Alice (guest) unread" with no explicit
status: the suffix is detached first, then the parenthetical is split. -/
theorem format_name_spec_witness :
    nameParts (some "Alice (guest) unread".data) none =
      ("Alice".data, "(guest)".data, some "unread".data) ∧
    format_name_html none "msg-author-name".data none =
      spanHtml "msg-author-name".data "Unknown".data := by
  constructor
  · have h := format_name_spec.1 (some "Alice (guest) unread".data) none rfl (by decide)
    rw [h]
    decide
  · exact format_name_spec.2.2.1 "msg-author-name".data

/-! ### C7: slug collisions on the folder page files

`main` writes `folders/<slug>.html` once per folder section, in
case-insensitive name order; `write_text` truncates, so the file ends up
holding the page of the last folder written with that slug.  The page is a
pure function (`render_folder_html`) of its folder, so the write log is
modelled as `(slug, folder)` pairs and the resulting file content as the last
write to that name. -/

def writeFolderPages (fs : List PyFolder) : List (List Char × PyFolder) :=
  fs.map (fun f => (f.slug, f))

/-- Content of `folders/<k>.html` after a sequence of writes: the payload of
the last write to that file name. -/
def diskContent (writes : List (List Char × PyFolder)) (k : List Char) :
    Option PyFolder :=
  ((writes.filter (fun p => p.1 == k)).getLast?).map (fun p => p.2)

/-- Record landing in folder "a b". -/
def recSpaceFolder : RawRecord :=
  { stem := "1".data, theadId := none, topic := none, folder := some "a b".data,
    views := none, messages := some [blankMsg] }

/-- Record landing in folder "a.b" — a distinct name with the same slug. -/
def recDotFolder : RawRecord :=
  { stem := "2".data, theadId := none, topic := none, folder := some "a.b".data,
    views := none, messages := some [blankMsg] }

/-- Counterexample to C7 as stated: for the distinct folder names "a b" and
"a.b", both slugifying to "a-b", the surviving `folders/a-b.html` holds the
page of the folder written last ("a.b"), whose thread list holds only that
folder's thread — the second folder's threads do not merge into the first
folder's page; the first folder's page is overwritten.  Both folders still
appear as index sections. -/
theorem slug_collision_cx :
    slugify "a b".data = "a-b".data ∧
    slugify "a.b".data = "a-b".data ∧
    ((folderSections (mainThreads (fun _ => none) id
        [recSpaceFolder, recDotFolder])).map (fun f => f.name) =
      ["a b".data, "a.b".data]) ∧
    ((diskContent (writeFolderPages (folderSections (mainThreads (fun _ => none) id
        [recSpaceFolder, recDotFolder]))) "a-b".data).map (fun f => f.name) =
      some "a.b".data) ∧
    ((diskContent (writeFolderPages (folderSections (mainThreads (fun _ => none) id
        [recSpaceFolder, recDotFolder]))) "a-b".data).map
        (fun f => f.threads.map (fun t => t.id)) =
      some ["2".data]) := by
  refine ⟨by decide, by decide, by decide, by decide, by decide⟩

/-- Claim C7 amended: a slug collision is never disambiguated and raises no
error; each colliding folder's page is written to the same file, and the file
ends up holding exactly the page of the last folder (in the written order)
whose slug matches — the last writer wins, the earlier folders' pages are
overwritten, and no merging occurs. -/
theorem slug_collision_last_writer (fs : List PyFolder) (k : List Char) :
    diskContent (writeFolderPages fs) k =
      (fs.filter (fun f => f.slug == k)).getLast? := by
  unfold diskContent writeFolderPages
  rw [List.filter_map]
  rw [List.getLast?_map]
  rw [Option.map_map]
  have : ((fun p : List Char × PyFolder => p.2) ∘ fun f : PyFolder => (f.slug, f)) =
      fun f : PyFolder => f := rfl
  rw [this]
  simp [Function.comp_def]

/-- Witness for C7 amended at the concrete colliding input. -/
theorem slug_collision_last_writer_witness :
    diskContent (writeFolderPages (folderSections (mainThreads (fun _ => none) id
        [recSpaceFolder, recDotFolder]))) "a-b".data =
      ((folderSections (mainThreads (fun _ => none) id
        [recSpaceFolder, recDotFolder])).filter
          (fun f => f.slug == "a-b".data)).getLast? :=
  slug_collision_last_writer _ _

/-! ### C9: timestamp display -/

def digitChar : Nat → Char
  | 0 => '0'
  | 1 => '1'
  | 2 => '2'
  | 3 => '3'
  | 4 => '4'
  | 5 => '5'
  | 6 => '6'
  | 7 => '7'
  | 8 => '8'
  | _ => '9'

/-- Fuelled decimal digit expansion (least significant first). -/
def natDigitsRevF : Nat → Nat → List Char
  | 0, _ => []
  | fuel + 1, n =>
    if n < 10 then [digitChar n]
    else digitChar (n % 10) :: natDigitsRevF fuel (n / 10)

/-- Python `str(n)` for a natural number. -/
def natToChars (n : Nat) : List Char := (natDigitsRevF (n + 1) n).reverse

/-- Python `f"{n:02d}"`. -/
def pad2 (n : Nat) : List Char := if n < 10 then '0' :: natToChars n else natToChars n

/-- Python `f"{n:04d}"`. -/
def pad4 (n : Nat) : List Char :=
  if n < 10 then '0' :: '0' :: '0' :: natToChars n
  else if n < 100 then '0' :: '0' :: natToChars n
  else if n < 1000 then '0' :: natToChars n
  else natToChars n

/-- A parsed timestamp (`datetime.datetime`), fields as numbers. -/
structure PyDateTime where
  year : Nat
  month : Nat
  day : Nat
  hour : Nat
  minute : Nat
  second : Nat
deriving DecidableEq

/-- `strftime("%b")` month abbreviations (months are 1 to 12 in a datetime). -/
def monthAbbrev : Nat → List Char
  | 1 => "Jan".data
  | 2 => "Feb".data
  | 3 => "Mar".data
  | 4 => "Apr".data
  | 5 => "May".data
  | 6 => "Jun".data
  | 7 => "Jul".data
  | 8 => "Aug".data
  | 9 => "Sep".data
  | 10 => "Oct".data
  | 11 => "Nov".data
  | _ => "Dec".data

/-- Embedding of `format_time_component`: `timestamp.hour % 12 or 12` (zero is
falsy), zero-padded minutes, AM strictly before noon. -/
def format_time_component (t : PyDateTime) : List Char :=
  (if t.hour % 12 = 0 then natToChars 12 else natToChars (t.hour % 12)) ++
    ":".data ++ pad2 t.minute ++ (if t.hour < 12 then "AM".data else "PM".data)

/-- Embedding of `format_date_short`: `M/DD/YY` (month unpadded, day and
two-digit year zero-padded), `None` for an absent timestamp. -/
def format_date_short (o : Option PyDateTime) : Option (List Char) :=
  o.map (fun t => natToChars t.month ++ "/".data ++ pad2 t.day ++ "/".data ++
    pad2 (t.year % 100))

/-- Embedding of `format_card_timestamp`: "Mon DD, YYYY h:mmAM/PM". -/
def format_card_timestamp (o : Option PyDateTime) : Option (List Char) :=
  o.map (fun t => monthAbbrev t.month ++ " ".data ++ pad2 t.day ++ ", ".data ++
    natToChars t.year ++ " ".data ++ format_time_component t)

/-- Embedding of `format_folder_date` (the folder table's date column):
zero-padded `MM/DD/YYYY`, "Unknown" when absent. -/
def format_folder_date (o : Option PyDateTime) : List Char :=
  match o with
  | none => "Unknown".data
  | some t => pad2 t.month ++ "/".data ++ pad2 t.day ++ "/".data ++ pad4 t.year

/-- `strftime("%b %d, %Y %I:%M %p")` as used for thread metadata: `%I` is the
zero-padded 12-hour clock and `%p` follows a space; `%Y` prints the year
number (unpadded for the four-digit years in scope). -/
def strftimeVerbose (t : PyDateTime) : List Char :=
  monthAbbrev t.month ++ " ".data ++ pad2 t.day ++ ", ".data ++ natToChars t.year ++
    " ".data ++ pad2 (if t.hour % 12 = 0 then 12 else t.hour % 12) ++ ":".data ++
    pad2 t.minute ++ " ".data ++ (if t.hour < 12 then "AM".data else "PM".data)

/-- The "First Posted"/"Last Updated" display of `render_thread_html`:
verbose form when parsed, "N/A" when absent. -/
def threadMetaDate (o : Option PyDateTime) : List Char :=
  match o with
  | none => "N/A".data
  | some t => strftimeVerbose t

/-- The message-header timestamp text of `render_messages` (lines 946-953):
short numeric date plus time when the raw date parses, the stripped raw
string otherwise. -/
def msgTimestampText (raw : List Char) (parsed : Option PyDateTime) : List Char :=
  match parsed with
  | some t =>
    if format_time_component t = [] then pyStrip ((format_date_short (some t)).getD [])
    else pyStrip ((format_date_short (some t)).getD []) ++ " ".data ++
      format_time_component t
  | none => pyStrip raw

theorem digitChar_no_space (d : Nat) : pyIsSpace (digitChar d) = false := by
  unfold digitChar
  split <;> decide

theorem natDigitsRevF_no_space :
    ∀ (fuel n : Nat) (c : Char), c ∈ natDigitsRevF fuel n → pyIsSpace c = false := by
  intro fuel
  induction fuel with
  | zero => intro n c hc; simp [natDigitsRevF] at hc
  | succ f ih =>
    intro n c hc
    unfold natDigitsRevF at hc
    by_cases hn : n < 10
    · rw [if_pos hn] at hc
      simp only [List.mem_singleton] at hc
      rw [hc]
      exact digitChar_no_space n
    · rw [if_neg hn] at hc
      rcases List.mem_cons.mp hc with rfl | hc2
      · exact digitChar_no_space (n % 10)
      · exact ih (n / 10) c hc2

theorem natToChars_no_space (n : Nat) (c : Char) (hc : c ∈ natToChars n) :
    pyIsSpace c = false :=
  natDigitsRevF_no_space (n + 1) n c (List.mem_reverse.mp hc)

theorem pad2_no_space (n : Nat) (c : Char) (hc : c ∈ pad2 n) : pyIsSpace c = false := by
  unfold pad2 at hc
  by_cases hn : n < 10
  · rw [if_pos hn] at hc
    rcases List.mem_cons.mp hc with rfl | hc2
    · decide
    · exact natToChars_no_space n c hc2
  · rw [if_neg hn] at hc
    exact natToChars_no_space n c hc

theorem shortDate_no_space (t : PyDateTime) (c : Char)
    (hc : c ∈ natToChars t.month ++ "/".data ++ pad2 t.day ++ "/".data ++
      pad2 (t.year % 100)) : pyIsSpace c = false := by
  rcases List.mem_append.mp hc with h | h
  · rcases List.mem_append.mp h with h | h
    · rcases List.mem_append.mp h with h | h
      · rcases List.mem_append.mp h with h | h
        · exact natToChars_no_space _ c h
        · simp only [List.mem_singleton] at h
          rw [h]
          decide
      · exact pad2_no_space _ c h
    · simp only [List.mem_singleton] at h
      rw [h]
      decide
  · exact pad2_no_space _ c h

theorem format_time_component_ne_nil (t : PyDateTime) : format_time_component t ≠ [] := by
  unfold format_time_component
  intro h
  rw [List.append_eq_nil, List.append_eq_nil, List.append_eq_nil] at h
  exact absurd h.1.1.2 (by decide)

/-- Counterexample to C9 as stated, at the timestamp Jan 2 2024, 9:05 AM and
an unparsable raw date: folder table rows show zero-padded `MM/DD/YYYY`, not
the short `M/D/YY` form; message headers show the short numeric form with the
time, not the verbose `Mon DD, YYYY h:mmAM/PM` form, and fall back to the raw
string (not "unknown"/"N/A") when the date does not parse; thread metadata
uses a zero-padded hour with a space before AM/PM, not `h:mmAM/PM`. -/
theorem timestamp_forms_cx :
    format_folder_date (some ⟨2024, 1, 2, 9, 5, 0⟩) = "01/02/2024".data ∧
    format_folder_date (some ⟨2024, 1, 2, 9, 5, 0⟩) ≠ "1/2/24".data ∧
    format_folder_date (some ⟨2024, 1, 2, 9, 5, 0⟩) ≠
      (format_date_short (some ⟨2024, 1, 2, 9, 5, 0⟩)).getD [] ∧
    msgTimestampText "x".data (some ⟨2024, 1, 2, 9, 5, 0⟩) = "1/02/24 9:05AM".data ∧
    msgTimestampText "x".data (some ⟨2024, 1, 2, 9, 5, 0⟩) ≠
      "Jan 02, 2024 9:05AM".data ∧
    msgTimestampText "not a date".data none = "not a date".data ∧
    msgTimestampText "not a date".data none ≠ "unknown".data ∧
    msgTimestampText "not a date".data none ≠ "N/A".data ∧
    threadMetaDate (some ⟨2024, 1, 2, 9, 5, 0⟩) = "Jan 02, 2024 09:05 AM".data ∧
    threadMetaDate (some ⟨2024, 1, 2, 9, 5, 0⟩) ≠ "Jan 02, 2024 9:05AM".data ∧
    format_card_timestamp (some ⟨2024, 1, 2, 9, 5, 0⟩) =
      some "Jan 02, 2024 9:05AM".data := by
  refine ⟨by decide, by decide, by decide, by decide, by decide, by decide,
    by decide, by decide, by decide, by decide, by decide⟩

/-- Claim C9 amended: folder table rows use zero-padded `MM/DD/YYYY` with
"Unknown" when the date is absent; message headers use the short numeric
`M/DD/YY` form followed by `h:mmAM/PM` when the date parses and fall back to
the stripped raw string when it does not; thread metadata uses
`strftime("%b %d, %Y %I:%M %p")` with "N/A" when absent; index cards use
`Mon DD, YYYY h:mmAM/PM`; every formatter is total, so an absent or unparsed
timestamp renders a placeholder or fallback rather than failing. -/
theorem timestamp_forms :
    (format_folder_date none = "Unknown".data) ∧
    (∀ t, format_folder_date (some t) =
      pad2 t.month ++ "/".data ++ pad2 t.day ++ "/".data ++ pad4 t.year) ∧
    (∀ raw t, msgTimestampText raw (some t) =
      natToChars t.month ++ "/".data ++ pad2 t.day ++ "/".data ++
        pad2 (t.year % 100) ++ " ".data ++ format_time_component t) ∧
    (∀ raw, msgTimestampText raw none = pyStrip raw) ∧
    (threadMetaDate none = "N/A".data) ∧
    (∀ t, threadMetaDate (some t) = strftimeVerbose t) ∧
    (format_card_timestamp none = none) ∧
    (∀ t, format_card_timestamp (some t) =
      some (monthAbbrev t.month ++ " ".data ++ pad2 t.day ++ ", ".data ++
        natToChars t.year ++ " ".data ++ format_time_component t)) := by
  refine ⟨rfl, fun t => rfl, ?_, fun raw => rfl, rfl, fun t => rfl, rfl, fun t => rfl⟩
  intro raw t
  show (if format_time_component t = [] then pyStrip ((format_date_short (some t)).getD [])
    else pyStrip ((format_date_short (some t)).getD []) ++ " ".data ++
      format_time_component t) =
    natToChars t.month ++ "/".data ++ pad2 t.day ++ "/".data ++
      pad2 (t.year % 100) ++ " ".data ++ format_time_component t
  rw [if_neg (format_time_component_ne_nil t)]
  have hgetd : (format_date_short (some t)).getD [] =
      natToChars t.month ++ "/".data ++ pad2 t.day ++ "/".data ++
        pad2 (t.year % 100) := rfl
  rw [hgetd]
  rw [pyStrip_eq_self _
    (fun c hc => shortDate_no_space t c (List.mem_of_mem_head? hc))
    (fun c hc => shortDate_no_space t c (List.mem_of_getLast?_eq_some hc))]

/-! ### C10: message anchors -/

/-- The anchor computed per message in `render_messages`:
`mid = msg.get("id") or "unknown"` (falsy default), then
`f"msg-{mid.replace('.', '-')}"`. -/
def msgAnchor (mid : Option (List Char)) : List Char :=
  "msg-".data ++ (pyOr mid "unknown".data).map (fun c => if c = '.' then '-' else c)

/-- Claim C10: the anchor is "msg-" followed by the identifier with every dot
replaced by a hyphen; an absent identifier yields literally "msg-unknown";
hence any two messages without identifiers receive identical anchors. -/
theorem msg_anchor_spec :
    (∀ s, s ≠ [] → msgAnchor (some s) =
      "msg-".data ++ s.map (fun c => if c = '.' then '-' else c)) ∧
    msgAnchor none = "msg-unknown".data ∧
    msgAnchor (some []) = "msg-unknown".data ∧
    (∀ m1 m2 : Option (List Char), m1 = none → m2 = none →
      msgAnchor m1 = msgAnchor m2) := by
  refine ⟨?_, by decide, by decide, ?_⟩
  · intro s hs
    unfold msgAnchor pyOr
    simp [hs]
  · rintro m1 m2 rfl rfl
    rfl

/-- Witness for C10 at identifier "12.3": anchor "msg-12-3". -/
theorem msg_anchor_spec_witness :
    msgAnchor (some "12.3".data) = "msg-12-3".data := by
  rw [msg_anchor_spec.1 "12.3".data (by decide)]
  decide

end DelphiExport
